import Mathlib

/-!
Verification of the SCORM analyzer/repair engine (`src/server.js`).

The JavaScript source is shallowly embedded: JS strings are modelled as
`List Char` (`Str`), the extracted working directory as a tree of named
entries, zip archives as lists of `(path, content)` pairs, and the xml2js
parse result of a manifest as a `Manifest` structure whose fields mirror
exactly the keys the code reads (`$` attribute objects become `attrs`).
External library calls (`xml2js` parse / build) are passed in as function
parameters; filesystem paths are modelled relative to the extraction root
(absolute temp-directory paths in the source become root-relative segment
lists).  JS exceptions (thrown `TypeError`s, rejected promises) are
modelled with `Except String`.
-/

set_option maxHeartbeats 1000000

set_option maxRecDepth 40000

namespace Scorm

/-- JS strings, modelled as lists of characters. -/
abbrev Str := List Char

/-- Boolean test that `p` starts the list `s` (JS `String.prototype.startsWith`). -/
def isPre (p s : Str) : Bool :=
  match p, s with
  | [], _ => true
  | _ :: _, [] => false
  | a :: as, b :: bs => if a = b then isPre as bs else false

/-- JS `String.prototype.includes`: `needle` occurs somewhere in `hay`. -/
def containsS (hay needle : Str) : Bool :=
  match hay with
  | [] => needle.isEmpty
  | _ :: rest => isPre needle hay || containsS rest needle

/-- JS `String.prototype.replace` with a plain-string pattern: replace the
first occurrence of `pat` by `rep` (no-op when `pat` does not occur). -/
def replaceFirst (s pat rep : Str) : Str :=
  match s with
  | [] => []
  | c :: rest => if isPre pat (c :: rest) then rep ++ (c :: rest).drop pat.length
                 else c :: replaceFirst rest pat rep

/-- Number of (possibly overlapping) occurrences of `needle` in a string. -/
def countOccs (needle : Str) : Str → Nat
  | [] => 0
  | c :: rest => (if isPre needle (c :: rest) then 1 else 0) + countOccs needle rest

/-- JS `String.prototype.endsWith`. -/
def isSuf (suffixPart s : Str) : Bool := isPre suffixPart.reverse s.reverse

/-- JS `String.prototype.toLowerCase` (on our character lists). -/
def lowerS (s : Str) : Str := s.map Char.toLower

/-- Join path segments with `/` (the shape `path.join`/`path.relative`
produce after the source's `.replace(/\\/g, '/')`). -/
def joinSegs : List Str → Str
  | [] => []
  | [s] => s
  | s :: rest => s ++ '/' :: joinSegs rest

/-- Split a string at a separator character (used with `/` for paths). -/
def splitOnChar (sep : Char) : Str → List Str
  | [] => [[]]
  | c :: rest =>
    match splitOnChar sep rest with
    | [] => [[c]]
    | p :: ps => if c = sep then [] :: p :: ps else (c :: p) :: ps

/-- Split a slash-separated path into segments. -/
def splitSlash (s : Str) : List Str := splitOnChar '/' s

/-- Normalisation of `.` and `..` segments performed by `path.join`. -/
def normSegs (segs : List Str) : List Str :=
  segs.foldl (fun acc s =>
    if s = ".".data then acc
    else if s = "..".data then acc.dropLast
    else acc ++ [s]) []

@[simp] theorem countOccs_nil (needle : Str) : countOccs needle [] = 0 := rfl

theorem countOccs_cons (needle : Str) (c : Char) (rest : Str) :
    countOccs needle (c :: rest) =
      (if isPre needle (c :: rest) then 1 else 0) + countOccs needle rest := rfl

theorem isPre_of_isPre_append (m a b : Str) (h : isPre m a = true) :
    isPre m (a ++ b) = true := by
  induction m generalizing a with
  | nil => simp [isPre]
  | cons x xs ih =>
    cases a with
    | nil => simp [isPre] at h
    | cons y ys =>
      simp only [isPre] at h ⊢
      by_cases hxy : x = y
      · simpa [hxy] using ih ys (by simpa [hxy] using h)
      · simp [hxy] at h

theorem isPre_length_le (m s : Str) (h : isPre m s = true) : m.length ≤ s.length := by
  induction m generalizing s with
  | nil => simp
  | cons x xs ih =>
    cases s with
    | nil => simp [isPre] at h
    | cons y ys =>
      simp only [isPre] at h
      by_cases hxy : x = y
      · simpa using ih ys (by simpa [hxy] using h)
      · simp [hxy] at h

theorem isPre_append_of_ne_elem (m a b : Str) (c : Char) (hc : c ∉ m) :
    isPre m (a ++ c :: b) = isPre m a := by
  induction m generalizing a with
  | nil => simp [isPre]
  | cons x xs ih =>
    cases a with
    | nil =>
      have hxc : x ≠ c := fun h => hc (by simp [h])
      simp [isPre, hxc]
    | cons y ys =>
      simp only [List.cons_append, isPre]
      by_cases hxy : x = y
      · have : c ∉ xs := fun h => hc (by simp [h])
        simp [hxy, ih ys this]
      · simp [hxy]

theorem countOccs_append_cons (m a b : Str) (c : Char) (hm : m ≠ []) (hc : c ∉ m) :
    countOccs m (a ++ c :: b) = countOccs m a + countOccs m b := by
  induction a with
  | nil =>
    cases m with
    | nil => exact absurd rfl hm
    | cons x xs =>
      have hxc : x ≠ c := fun h => hc (by simp [h])
      simp [countOccs_cons, isPre, hxc]
  | cons y ys ih =>
    have hpre : isPre m (y :: (ys ++ c :: b)) = isPre m (y :: ys) := by
      simpa using isPre_append_of_ne_elem m (y :: ys) b c hc
    simp only [List.cons_append, countOccs_cons, hpre, ih]
    omega

theorem countOccs_le_append_left (m a b : Str) :
    countOccs m b ≤ countOccs m (a ++ b) := by
  induction a with
  | nil => simp
  | cons y ys ih =>
    calc countOccs m b ≤ countOccs m (ys ++ b) := ih
    _ ≤ countOccs m (y :: (ys ++ b)) := by rw [countOccs_cons]; omega
    _ = countOccs m ((y :: ys) ++ b) := rfl

theorem countOccs_le_append_right (m a b : Str) :
    countOccs m a ≤ countOccs m (a ++ b) := by
  induction a with
  | nil => simp
  | cons y ys ih =>
    simp only [List.cons_append, countOccs_cons]
    have : (if isPre m (y :: ys) then 1 else 0) ≤ (if isPre m (y :: (ys ++ b)) then 1 else 0) := by
      by_cases h : isPre m (y :: ys)
      · have := isPre_of_isPre_append m (y :: ys) b h
        simp only [List.cons_append] at this
        simp [h, this]
      · simp [h]
    omega

theorem containsS_iff_countOccs (s m : Str) (hm : m ≠ []) :
    containsS s m = true ↔ 0 < countOccs m s := by
  induction s with
  | nil =>
    cases m with
    | nil => exact absurd rfl hm
    | cons x xs => simp [containsS, countOccs]
  | cons c rest ih =>
    simp only [containsS, countOccs_cons, Bool.or_eq_true]
    constructor
    · rintro (h | h)
      · simp [h]
      · have := ih.mp h; omega
    · intro h
      cases hip : isPre m (c :: rest) with
      | true => exact Or.inl rfl
      | false =>
        rw [hip] at h
        simp only [Bool.false_eq_true, if_false, Nat.zero_add] at h
        exact Or.inr (ih.mpr h)

theorem isPre_drop_eq (p s : Str) (h : isPre p s = true) :
    s = p ++ s.drop p.length := by
  induction p generalizing s with
  | nil => simp
  | cons x xs ih =>
    cases s with
    | nil => simp [isPre] at h
    | cons y ys =>
      simp only [isPre] at h
      by_cases hxy : x = y
      · subst hxy
        have := ih ys (by simpa using h)
        simpa using this
      · simp [hxy] at h

theorem replaceFirst_spec (s pat rep : Str) (hpat : pat ≠ []) (h : containsS s pat = true) :
    ∃ x y, s = x ++ pat ++ y ∧ replaceFirst s pat rep = x ++ rep ++ y := by
  induction s with
  | nil =>
    cases pat with
    | nil => exact absurd rfl hpat
    | cons p ps => simp [containsS] at h
  | cons c rest ih =>
    by_cases hp : isPre pat (c :: rest)
    · refine ⟨[], (c :: rest).drop pat.length, ?_, ?_⟩
      · simpa using isPre_drop_eq pat (c :: rest) hp
      · simp [replaceFirst, hp]
    · simp only [containsS, Bool.or_eq_true] at h
      rcases h with h | h
      · exact absurd h hp
      · obtain ⟨x, y, hs, hr⟩ := ih h
        exact ⟨c :: x, y, by simp [hs], by simp [replaceFirst, hp, hr]⟩

theorem countOccs_cons_of_ne (m : Str) (c : Char) (r : Str) (hm : m ≠ []) (hc : c ∉ m) :
    countOccs m (c :: r) = countOccs m r := by
  simpa using countOccs_append_cons m [] r c hm hc

/-! ### Instrumentation snippets and their insertion

`injectShimIntoDir` / `injectTrackerIntoDir` (src/server.js lines 664–726)
wrap a script source into a `<script>` block carrying a marker comment and
insert it after `<head>`, else before `</head>`, else at the top of the
document.  The same three-way fallback is used by repair Fix 6. -/

def headOpen : Str := "<head>".data

def headClose : Str := "</head>".data

/-- The three-way insertion fallback shared by the injectors and repair
Fix 6: after the first `<head>`, else before the first `</head>`, else
prepended to the whole document. -/
def insertAfterHead (block html : Str) : Str :=
  if containsS html headOpen then replaceFirst html headOpen (headOpen ++ '\n' :: block)
  else if containsS html headClose then replaceFirst html headClose (block ++ headClose)
  else block ++ html

/-- Generic shape of both inlined script blocks:
`"<script>\n" + header comment + "\n" + script source + "\n</script>\n"`. -/
def blockOf (hdr src : Str) : Str :=
  "<script>\n".data ++ hdr ++ "\n".data ++ src ++ "\n</script>\n".data

def shimMarker : Str := "SCORM API Shim (inlined)".data

def shimHdr : Str := "/* === SCORM API Shim (inlined) === */".data

/-- The inlined shim block built by `injectShimIntoDir` from the shim
source `src`. -/
def shimBlockOf (src : Str) : Str :=
  "<script>\n/* === SCORM API Shim (inlined) === */\n".data ++ src ++ "\n</script>\n".data

def trackerMarker : Str := "SCORM Event Tracker (inlined)".data

def trackerHdr : Str := "/* === SCORM Event Tracker (inlined) === */".data

/-- The inlined tracker block built by `injectTrackerIntoDir`. -/
def trackerBlockOf (src : Str) : Str :=
  "<script>\n/* === SCORM Event Tracker (inlined) === */\n".data ++ src ++ "\n</script>\n".data

theorem shimBlockOf_eq (src : Str) : shimBlockOf src = blockOf shimHdr src := by
  have h : "<script>\n/* === SCORM API Shim (inlined) === */\n".data =
      "<script>\n".data ++ shimHdr ++ "\n".data := by decide
  simp [shimBlockOf, blockOf, h, shimHdr]

theorem trackerBlockOf_eq (src : Str) : trackerBlockOf src = blockOf trackerHdr src := by
  have h : "<script>\n/* === SCORM Event Tracker (inlined) === */\n".data =
      "<script>\n".data ++ trackerHdr ++ "\n".data := by decide
  simp [trackerBlockOf, blockOf, h, trackerHdr]

theorem blockOf_append_eq (hdr src t : Str) :
    blockOf hdr src ++ t =
      '<' :: ("script>".data ++ '\n' :: (hdr ++ '\n' :: (src ++ '\n' ::
        ('<' :: ("/script>".data ++ '\n' :: t))))) := by
  have e1 : "<script>\n".data = '<' :: ("script>".data ++ ['\n']) := by decide
  have e3 : "\n</script>\n".data = '\n' :: '<' :: ("/script>".data ++ ['\n']) := by decide
  rw [blockOf, e1, e3]
  simp [List.append_assoc]

theorem countOccs_blockOf_append (m hdr src : Str)
    (hm : m ≠ []) (hlt : '<' ∉ m) (hnl : '\n' ∉ m)
    (hhdr : countOccs m hdr = 1) (hsrc : countOccs m src = 0)
    (hscr : countOccs m "script>".data = 0) (hscr2 : countOccs m "/script>".data = 0)
    (t : Str) :
    countOccs m (blockOf hdr src ++ t) = 1 + countOccs m t := by
  rw [blockOf_append_eq]
  rw [countOccs_cons_of_ne m '<' _ hm hlt,
      countOccs_append_cons m "script>".data _ '\n' hm hnl, hscr,
      countOccs_append_cons m hdr _ '\n' hm hnl, hhdr,
      countOccs_append_cons m src _ '\n' hm hnl, hsrc,
      countOccs_cons_of_ne m '<' _ hm hlt,
      countOccs_append_cons m "/script>".data t '\n' hm hnl, hscr2]
  omega

theorem countOccs_sandwich (m hdr src : Str)
    (hm : m ≠ []) (hlt : '<' ∉ m) (hnl : '\n' ∉ m)
    (hhdr : countOccs m hdr = 1) (hsrc : countOccs m src = 0)
    (hscr : countOccs m "script>".data = 0) (hscr2 : countOccs m "/script>".data = 0)
    (a t : Str) :
    countOccs m (a ++ (blockOf hdr src ++ t)) = countOccs m a + 1 + countOccs m t := by
  have hb := countOccs_blockOf_append m hdr src hm hlt hnl hhdr hsrc hscr hscr2 t
  rw [blockOf_append_eq] at hb ⊢
  rw [countOccs_append_cons m a _ '<' hm hlt]
  rw [countOccs_cons_of_ne m '<' _ hm hlt] at hb
  omega

theorem insertAfterHead_count (m hdr src html : Str)
    (hm : m ≠ []) (hlt : '<' ∉ m) (hnl : '\n' ∉ m)
    (hhdr : countOccs m hdr = 1) (hsrc : countOccs m src = 0)
    (hscr : countOccs m "script>".data = 0) (hscr2 : countOccs m "/script>".data = 0)
    (hhtml : countOccs m html = 0) :
    countOccs m (insertAfterHead (blockOf hdr src) html) = 1 := by
  rw [insertAfterHead]
  by_cases h1 : containsS html headOpen = true
  · rw [if_pos h1]
    obtain ⟨x, y, hsplit, hrep⟩ :=
      replaceFirst_spec html headOpen (headOpen ++ '\n' :: blockOf hdr src) (by decide) h1
    rw [hrep]
    have hho : headOpen = '<' :: "head>".data := by decide
    have hx0 : countOccs m x = 0 ∧ countOccs m ("head>".data ++ y) = 0 := by
      have : countOccs m (x ++ '<' :: ("head>".data ++ y)) = 0 := by
        rw [← hhtml, hsplit, hho]; simp [List.append_assoc]
      rw [countOccs_append_cons m x _ '<' hm hlt] at this
      omega
    have hy0 : countOccs m y = 0 :=
      Nat.le_antisymm (hx0.2 ▸ countOccs_le_append_left m "head>".data y) (Nat.zero_le _)
    have hh0 : countOccs m "head>".data = 0 :=
      Nat.le_antisymm (hx0.2 ▸ countOccs_le_append_right m "head>".data y) (Nat.zero_le _)
    have he : x ++ (headOpen ++ '\n' :: blockOf hdr src) ++ y =
        x ++ '<' :: ("head>".data ++ '\n' :: (blockOf hdr src ++ y)) := by
      rw [hho]; simp [List.append_assoc]
    rw [he, countOccs_append_cons m x _ '<' hm hlt,
        countOccs_append_cons m "head>".data _ '\n' hm hnl,
        countOccs_blockOf_append m hdr src hm hlt hnl hhdr hsrc hscr hscr2 y,
        hx0.1, hh0, hy0]
  · rw [if_neg h1]
    by_cases h2 : containsS html headClose = true
    · rw [if_pos h2]
      obtain ⟨x, y, hsplit, hrep⟩ :=
        replaceFirst_spec html headClose (blockOf hdr src ++ headClose) (by decide) h2
      rw [hrep]
      have hhc : headClose = '<' :: "/head>".data := by decide
      have hx0 : countOccs m x = 0 ∧ countOccs m ("/head>".data ++ y) = 0 := by
        have : countOccs m (x ++ '<' :: ("/head>".data ++ y)) = 0 := by
          rw [← hhtml, hsplit, hhc]; simp [List.append_assoc]
        rw [countOccs_append_cons m x _ '<' hm hlt] at this
        omega
      have he : x ++ (blockOf hdr src ++ headClose) ++ y =
          x ++ (blockOf hdr src ++ '<' :: ("/head>".data ++ y)) := by
        rw [hhc]; simp [List.append_assoc]
      rw [he, countOccs_sandwich m hdr src hm hlt hnl hhdr hsrc hscr hscr2,
          countOccs_cons_of_ne m '<' _ hm hlt, hx0.1, hx0.2]
    · rw [if_neg h2]
      rw [countOccs_blockOf_append m hdr src hm hlt hnl hhdr hsrc hscr hscr2 html, hhtml]

/-! ### Directory trees

The extracted working directory (`tmpDir`) is a tree of named entries; the
entry order of an `EntryList` is the `fs.readdirSync` listing order. -/

mutual
inductive Entry where
  | file : Str → Str → Entry
  | dir : Str → EntryList → Entry
inductive EntryList where
  | nil : EntryList
  | cons : Entry → EntryList → EntryList
end

def entryName : Entry → Str
  | .file n _ => n
  | .dir n _ => n

/-- First entry with the given (exact, case-sensitive) name. -/
def lookupEntry : EntryList → Str → Option Entry
  | .nil, _ => none
  | .cons e rest, n => if entryName e = n then some e else lookupEntry rest n

/-- Resolve a root-relative segment path to the node it denotes, if any
(the model of `fs.existsSync` / `fs.readFileSync` path resolution). -/
def getNode : EntryList → List Str → Option Entry
  | _, [] => none
  | t, [n] => lookupEntry t n
  | t, n :: m :: p =>
    match lookupEntry t n with
    | some (.dir _ cs) => getNode cs (m :: p)
    | _ => none

def existsPath (t : EntryList) (p : List Str) : Bool := (getNode t p).isSome

/-- Content of the file at `p` (unspecified-empty when `p` is not a file;
our uses are guarded by existence facts). -/
def readFileD (t : EntryList) (p : List Str) : Str :=
  match getNode t p with
  | some (.file _ c) => c
  | _ => []

/-- Create the chain of directories/file for the remaining path. -/
def mkFilePath : List Str → Str → EntryList
  | [], _ => .nil
  | [n], c => .cons (.file n c) .nil
  | n :: m :: p, c => .cons (.dir n (mkFilePath (m :: p) c)) .nil

/-- `fs.writeFileSync`: overwrite the file at `p` (or create it). -/
def writeFile : EntryList → List Str → Str → EntryList
  | t, [], _ => t
  | .nil, p, c => mkFilePath p c
  | .cons e rest, [n], c =>
    match e with
    | .file nm _ => if nm = n then .cons (.file n c) rest
                    else .cons e (writeFile rest [n] c)
    | .dir nm _ => if nm = n then .cons e rest
                   else .cons e (writeFile rest [n] c)
  | .cons e rest, n :: m :: p, c =>
    match e with
    | .dir nm cs => if nm = n then .cons (.dir nm (writeFile cs (m :: p) c)) rest
                    else .cons e (writeFile rest (n :: m :: p) c)
    | .file _ _ => .cons e (writeFile rest (n :: m :: p) c)

/-- The test `e.name.match(/\.html?$/i)` used on directory entries. -/
def isHtmlName (n : Str) : Bool :=
  isSuf ".html".data (lowerS n) || isSuf ".htm".data (lowerS n)

mutual
/-- `findFile(dir, filename)` (src/server.js lines 301–314): depth-first,
in listing order, case-insensitive name match; returns the path. -/
def findFile : EntryList → Str → Option (List Str)
  | .nil, _ => none
  | .cons e rest, target =>
    match findFileEntry e target with
    | some p => some p
    | none => findFile rest target
def findFileEntry : Entry → Str → Option (List Str)
  | .file n _, target => if lowerS n = lowerS target then some [n] else none
  | .dir n cs, target => (findFile cs target).map (fun p => n :: p)
end

mutual
/-- `findFirstHtml` (lines 333–345): first file whose name matches
`/\.html?$/i`, depth-first in listing order. -/
def findFirstHtml : EntryList → Option (List Str)
  | .nil => none
  | .cons e rest =>
    match findFirstHtmlEntry e with
    | some p => some p
    | none => findFirstHtml rest
def findFirstHtmlEntry : Entry → Option (List Str)
  | .file n _ => if isHtmlName n then some [n] else none
  | .dir n cs => (findFirstHtml cs).map (fun p => n :: p)
end

/-- `LAUNCH_CANDIDATES` (lines 316–322). -/
def LAUNCH_CANDIDATES : List Str :=
  ["index_lms.html".data, "index_lms.htm".data,
   "story.html".data, "story.htm".data,
   "index.html".data, "index.htm".data,
   "launch.html".data, "launch.htm".data,
   "default.html".data, "default.htm".data]

def tryCandidates : List Str → EntryList → Option (List Str)
  | [], t => findFirstHtml t
  | c :: cs, t =>
    match findFile t c with
    | some p => some p
    | none => tryCandidates cs t

/-- `findLaunchFile` (lines 324–331): each candidate name in priority
order, falling back to the first `.html` file anywhere in the tree. -/
def findLaunchFile (t : EntryList) : Option (List Str) :=
  tryCandidates LAUNCH_CANDIDATES t

mutual
/-- `addDirToZip` (lines 347–358): every file of the tree, with its
slash-joined path relative to the base directory. -/
def addDirToZip (pref : List Str) : EntryList → List (Str × Str)
  | .nil => []
  | .cons e rest => addDirToZipEntry pref e ++ addDirToZip pref rest
def addDirToZipEntry (pref : List Str) : Entry → List (Str × Str)
  | .file n c => [(joinSegs (pref ++ [n]), c)]
  | .dir n cs => addDirToZip (pref ++ [n]) cs
end

mutual
/-- The relative segment paths of all files in a tree (spec-side view of
the tree's file set, used to state the repack round-trip). -/
def treeFilePaths : EntryList → List (List Str)
  | .nil => []
  | .cons e rest => treeFilePathsEntry e ++ treeFilePaths rest
def treeFilePathsEntry : Entry → List (List Str)
  | .file n _ => [[n]]
  | .dir n cs => (treeFilePaths cs).map (fun p => n :: p)
end

/-- Sanity check: `findFile` is case-insensitive and depth-first (the
nested `B.HTML` wins over the sibling `b.html`). -/
theorem findFile_case_insensitive_dfs :
    findFile (.cons (.dir "a".data (.cons (.file "B.HTML".data "x".data) .nil))
      (.cons (.file "b.html".data "y".data) .nil)) "b.html".data
    = some ["a".data, "B.HTML".data] := rfl

/-- Sanity check: the launch-candidate priority prefers `story.html` over
`index.html`. -/
theorem findLaunchFile_priority_sample :
    findLaunchFile (.cons (.file "index.html".data "x".data)
      (.cons (.file "story.html".data "y".data) .nil)) = some ["story.html".data] := rfl

/-! ### The instrumentation injectors (src/server.js lines 664–726)

Both walkers read their script source once, build the inlined block, and
for every file matching `/\.html?$/i` skip the document when the marker is
already present, else insert the block with the three-way fallback. -/

/-- Per-document injection step shared by both injectors: skip when the
marker is present, else insert the block. -/
def injectDoc (marker block html : Str) : Str :=
  if containsS html marker then html else insertAfterHead block html

mutual
def injectDirWith (marker block : Str) : EntryList → EntryList
  | .nil => .nil
  | .cons e rest => .cons (injectEntryWith marker block e) (injectDirWith marker block rest)
def injectEntryWith (marker block : Str) : Entry → Entry
  | .file n c => if isHtmlName n then .file n (injectDoc marker block c) else .file n c
  | .dir n cs => .dir n (injectDirWith marker block cs)
end

/-- `injectShimIntoDir`, applied to a tree extracted at `sessionDir`;
`shimSrc` is the content of `public/scorm-api-shim.js`. -/
def injectShimIntoDir (shimSrc : Str) (t : EntryList) : EntryList :=
  injectDirWith shimMarker (shimBlockOf shimSrc) t

/-- `injectTrackerIntoDir`; `trackerSrc` is the content of
`public/scorm-event-tracker.js`. -/
def injectTrackerIntoDir (trackerSrc : Str) (t : EntryList) : EntryList :=
  injectDirWith trackerMarker (trackerBlockOf trackerSrc) t

mutual
/-- Every HTML document of the tree contains the marker at most once. -/
def docsLeOne (marker : Str) : EntryList → Bool
  | .nil => true
  | .cons e rest => docsLeOneEntry marker e && docsLeOne marker rest
def docsLeOneEntry (marker : Str) : Entry → Bool
  | .file n c => !isHtmlName n || decide (countOccs marker c ≤ 1)
  | .dir _ cs => docsLeOne marker cs
end

mutual
/-- Every HTML document of the tree contains the marker exactly once. -/
def docsExactlyOne (marker : Str) : EntryList → Bool
  | .nil => true
  | .cons e rest => docsExactlyOneEntry marker e && docsExactlyOne marker rest
def docsExactlyOneEntry (marker : Str) : Entry → Bool
  | .file n c => !isHtmlName n || decide (countOccs marker c = 1)
  | .dir _ cs => docsExactlyOne marker cs
end

theorem countOccs_eq_zero_of_not_contains (s m : Str) (hm : m ≠ [])
    (h : containsS s m = false) : countOccs m s = 0 := by
  by_contra hne
  have : containsS s m = true := (containsS_iff_countOccs s m hm).mpr (Nat.pos_of_ne_zero hne)
  rw [h] at this
  exact Bool.false_ne_true this

theorem injectDoc_count (m hdr src html : Str)
    (hm : m ≠ []) (hlt : '<' ∉ m) (hnl : '\n' ∉ m)
    (hhdr : countOccs m hdr = 1) (hsrc : countOccs m src = 0)
    (hscr : countOccs m "script>".data = 0) (hscr2 : countOccs m "/script>".data = 0)
    (hle : countOccs m html ≤ 1) :
    countOccs m (injectDoc m (blockOf hdr src) html) = 1 := by
  rw [injectDoc]
  cases hc : containsS html m with
  | true =>
    rw [if_pos rfl]
    have := (containsS_iff_countOccs html m hm).mp hc
    omega
  | false =>
    rw [if_neg (by simp)]
    exact insertAfterHead_count m hdr src html hm hlt hnl hhdr hsrc hscr hscr2
      (countOccs_eq_zero_of_not_contains html m hm hc)

theorem injectDoc_idem (m hdr src html : Str)
    (hm : m ≠ []) (hlt : '<' ∉ m) (hnl : '\n' ∉ m)
    (hhdr : countOccs m hdr = 1) (hsrc : countOccs m src = 0)
    (hscr : countOccs m "script>".data = 0) (hscr2 : countOccs m "/script>".data = 0) :
    injectDoc m (blockOf hdr src) (injectDoc m (blockOf hdr src) html) =
      injectDoc m (blockOf hdr src) html := by
  cases hc : containsS html m with
  | true =>
    have hinner : injectDoc m (blockOf hdr src) html = html := by rw [injectDoc, if_pos hc]
    rw [hinner, hinner]
  | false =>
    have h1 : countOccs m (injectDoc m (blockOf hdr src) html) = 1 := by
      rw [injectDoc, if_neg (by simp [hc])]
      exact insertAfterHead_count m hdr src html hm hlt hnl hhdr hsrc hscr hscr2
        (countOccs_eq_zero_of_not_contains html m hm hc)
    have h2 : containsS (injectDoc m (blockOf hdr src) html) m = true :=
      (containsS_iff_countOccs _ m hm).mpr (by omega)
    conv => lhs; rw [injectDoc, if_pos h2]

mutual
theorem injectTree_once (m hdr src : Str)
    (hm : m ≠ []) (hlt : '<' ∉ m) (hnl : '\n' ∉ m)
    (hhdr : countOccs m hdr = 1) (hsrc : countOccs m src = 0)
    (hscr : countOccs m "script>".data = 0) (hscr2 : countOccs m "/script>".data = 0) :
    ∀ t : EntryList, docsLeOne m t = true →
      docsExactlyOne m (injectDirWith m (blockOf hdr src) t) = true
  | .nil, _ => rfl
  | .cons e rest, h => by
    simp only [docsLeOne, Bool.and_eq_true] at h
    simp only [injectDirWith, docsExactlyOne, Bool.and_eq_true]
    exact ⟨injectEntry_once m hdr src hm hlt hnl hhdr hsrc hscr hscr2 e h.1,
           injectTree_once m hdr src hm hlt hnl hhdr hsrc hscr hscr2 rest h.2⟩
theorem injectEntry_once (m hdr src : Str)
    (hm : m ≠ []) (hlt : '<' ∉ m) (hnl : '\n' ∉ m)
    (hhdr : countOccs m hdr = 1) (hsrc : countOccs m src = 0)
    (hscr : countOccs m "script>".data = 0) (hscr2 : countOccs m "/script>".data = 0) :
    ∀ e : Entry, docsLeOneEntry m e = true →
      docsExactlyOneEntry m (injectEntryWith m (blockOf hdr src) e) = true
  | .file n c, h => by
    simp only [docsLeOneEntry, Bool.or_eq_true, Bool.not_eq_eq_eq_not, Bool.not_true,
      decide_eq_true_eq] at h
    cases hn : isHtmlName n with
    | false => simp [injectEntryWith, hn, docsExactlyOneEntry]
    | true =>
      have hle : countOccs m c ≤ 1 := by
        rcases h with h | h
        · rw [hn] at h; exact absurd h (by simp)
        · exact h
      simp only [injectEntryWith, hn, if_pos, docsExactlyOneEntry]
      simp [hn, injectDoc_count m hdr src c hm hlt hnl hhdr hsrc hscr hscr2 hle]
  | .dir n cs, h => by
    simp only [docsLeOneEntry] at h
    simpa [injectEntryWith, docsExactlyOneEntry] using
      injectTree_once m hdr src hm hlt hnl hhdr hsrc hscr hscr2 cs h
end

mutual
theorem injectTree_idem (m hdr src : Str)
    (hm : m ≠ []) (hlt : '<' ∉ m) (hnl : '\n' ∉ m)
    (hhdr : countOccs m hdr = 1) (hsrc : countOccs m src = 0)
    (hscr : countOccs m "script>".data = 0) (hscr2 : countOccs m "/script>".data = 0) :
    ∀ t : EntryList, injectDirWith m (blockOf hdr src) (injectDirWith m (blockOf hdr src) t) =
      injectDirWith m (blockOf hdr src) t
  | .nil => rfl
  | .cons e rest => by
    simp only [injectDirWith]
    rw [injectEntry_idem m hdr src hm hlt hnl hhdr hsrc hscr hscr2 e,
        injectTree_idem m hdr src hm hlt hnl hhdr hsrc hscr hscr2 rest]
theorem injectEntry_idem (m hdr src : Str)
    (hm : m ≠ []) (hlt : '<' ∉ m) (hnl : '\n' ∉ m)
    (hhdr : countOccs m hdr = 1) (hsrc : countOccs m src = 0)
    (hscr : countOccs m "script>".data = 0) (hscr2 : countOccs m "/script>".data = 0) :
    ∀ e : Entry, injectEntryWith m (blockOf hdr src) (injectEntryWith m (blockOf hdr src) e) =
      injectEntryWith m (blockOf hdr src) e
  | .file n c => by
    cases hn : isHtmlName n with
    | false => simp [injectEntryWith, hn]
    | true =>
      simp [injectEntryWith, hn,
        injectDoc_idem m hdr src c hm hlt hnl hhdr hsrc hscr hscr2]
  | .dir n cs => by
    simp only [injectEntryWith]
    rw [injectTree_idem m hdr src hm hlt hnl hhdr hsrc hscr hscr2 cs]
end

/-- C4 (counterexample): a tree whose single HTML document already contains
the shim marker twice is skipped by the injector, so running the injection
pass twice leaves the document unchanged with two marker occurrences, not
exactly one — refuting the claim's universal quantification over all
directory trees of HTML documents. -/
theorem C4_counterexample :
    injectShimIntoDir "var x;".data (injectShimIntoDir "var x;".data
        (.cons (.file "a.html".data (shimMarker ++ shimMarker)) .nil)) =
      .cons (.file "a.html".data (shimMarker ++ shimMarker)) .nil ∧
    countOccs shimMarker (shimMarker ++ shimMarker) = 2 :=
  ⟨rfl, by decide⟩

/-- C4 (amended): each injector skips any HTML document already containing
its marker, so a second (and any later) run of the pass changes nothing;
and for every tree whose HTML documents each contain the marker at most
once beforehand (in particular every marker-free tree), one pass — hence
any number of passes — leaves exactly one marker occurrence per HTML
document.  The hypotheses say the snippet sources do not themselves
contain their markers, which holds for the repository's shim and tracker
files. -/
theorem C4_injection_idempotent_single_marker
    (shimSrc trackerSrc : Str)
    (hs : countOccs shimMarker shimSrc = 0)
    (ht : countOccs trackerMarker trackerSrc = 0)
    (t : EntryList) :
    (injectShimIntoDir shimSrc (injectShimIntoDir shimSrc t) = injectShimIntoDir shimSrc t ∧
      (docsLeOne shimMarker t = true →
        docsExactlyOne shimMarker (injectShimIntoDir shimSrc t) = true)) ∧
    (injectTrackerIntoDir trackerSrc (injectTrackerIntoDir trackerSrc t) =
        injectTrackerIntoDir trackerSrc t ∧
      (docsLeOne trackerMarker t = true →
        docsExactlyOne trackerMarker (injectTrackerIntoDir trackerSrc t) = true)) := by
  refine ⟨⟨?_, ?_⟩, ?_, ?_⟩
  · simp only [injectShimIntoDir, shimBlockOf_eq]
    exact injectTree_idem shimMarker shimHdr shimSrc (by decide) (by decide) (by decide)
      (by decide) hs (by decide) (by decide) t
  · intro h
    simp only [injectShimIntoDir, shimBlockOf_eq]
    exact injectTree_once shimMarker shimHdr shimSrc (by decide) (by decide) (by decide)
      (by decide) hs (by decide) (by decide) t h
  · simp only [injectTrackerIntoDir, trackerBlockOf_eq]
    exact injectTree_idem trackerMarker trackerHdr trackerSrc (by decide) (by decide) (by decide)
      (by decide) ht (by decide) (by decide) t
  · intro h
    simp only [injectTrackerIntoDir, trackerBlockOf_eq]
    exact injectTree_once trackerMarker trackerHdr trackerSrc (by decide) (by decide) (by decide)
      (by decide) ht (by decide) (by decide) t h

/-- Concrete inputs for the C4 witness. -/
def c4tree : EntryList :=
  .cons (.file "a.html".data "<head></head>".data)
    (.cons (.file "n.txt".data "hi".data) .nil)

def c4shimSrc : Str := "var a = 1;".data

def c4trackSrc : Str := "var b = 2;".data

/-- C4 witness: the amended theorem applied to concrete snippet sources and
a concrete two-document tree. -/
theorem C4_injection_witness :
    countOccs shimMarker c4shimSrc = 0 ∧
    countOccs trackerMarker c4trackSrc = 0 ∧
    (injectShimIntoDir c4shimSrc (injectShimIntoDir c4shimSrc c4tree) =
        injectShimIntoDir c4shimSrc c4tree ∧
      (docsLeOne shimMarker c4tree = true →
        docsExactlyOne shimMarker (injectShimIntoDir c4shimSrc c4tree) = true)) ∧
    (injectTrackerIntoDir c4trackSrc (injectTrackerIntoDir c4trackSrc c4tree) =
        injectTrackerIntoDir c4trackSrc c4tree ∧
      (docsLeOne trackerMarker c4tree = true →
        docsExactlyOne trackerMarker (injectTrackerIntoDir c4trackSrc c4tree) = true)) :=
  ⟨by decide, by decide,
    C4_injection_idempotent_single_marker c4shimSrc c4trackSrc
      (by decide) (by decide) c4tree⟩

/-! ### The parsed manifest (xml2js object shape)

Fields mirror exactly the keys `src/server.js` reads from the xml2js parse
result; every child key holds an array (`explicitArray`), a missing key is
`none`, and the `$` attribute object of a node becomes `attrs`.  Indexing
`[0]` into such an array is JS member access on a possibly-`undefined`
value, so it is modelled by `jsAt`, which throws (`Except.error`) on an
empty array exactly as JS would throw a `TypeError`. -/

abbrev AttrList := List (Str × Str)

def getAttr (l : AttrList) (k : Str) : Option Str :=
  (l.find? (fun kv => kv.1 == k)).map (fun kv => kv.2)

/-- JS property assignment `obj[k] = v`. -/
def setAttr (l : AttrList) (k v : Str) : AttrList :=
  if (l.find? (fun kv => kv.1 == k)).isSome
  then l.map (fun kv => if kv.1 == k then (k, v) else kv)
  else l ++ [(k, v)]

/-- JS truthiness of an optional string (`undefined` and `''` are falsy). -/
def truthyS : Option Str → Bool
  | none => false
  | some s => !s.isEmpty

/-- `array[0]`, throwing a `TypeError` on `undefined` like JS member
access on the result would. -/
def jsAt {α : Type} : List α → Except String α
  | [] => .error "TypeError: cannot read properties of undefined"
  | a :: _ => .ok a

structure LangString where
  text : Option Str := none
deriving DecidableEq

structure TitleEl where
  langstring : Option (List LangString) := none
deriving DecidableEq

structure GeneralEl where
  title : Option (List TitleEl) := none
deriving DecidableEq

structure Lom where
  general : Option (List GeneralEl) := none
deriving DecidableEq

structure MetaBlock where
  schema : Option (List Str) := none
  schemaversion : Option (List Str) := none
  lom : Option (List Lom) := none
deriving DecidableEq

structure Item where
  attrs : Option AttrList := none
  title : Option (List Str) := none
deriving DecidableEq

structure Organization where
  item : Option (List Item) := none
deriving DecidableEq

structure OrgsBlock where
  organization : Option (List Organization) := none
deriving DecidableEq

structure Resource where
  attrs : Option AttrList := none
deriving DecidableEq

structure ResourcesBlock where
  resource : Option (List Resource) := none
deriving DecidableEq

structure Manifest where
  attrs : Option AttrList := none
  metadata : Option (List MetaBlock) := none
  organizations : Option (List OrgsBlock) := none
  resources : Option (List ResourcesBlock) := none
deriving DecidableEq

/-! ### analyzeSCORM (src/server.js lines 28–147) -/

structure ZipEntry where
  entryName : Str
  content : Str
deriving DecidableEq

/-- The `AnalysisReport`; failure returns carry only `success`/`error`. -/
structure Analysis where
  success : Bool
  hasManifest : Bool := false
  resumeCapable : Bool := false
  details : List String := []
  metaVersion : Option Str := none
  metaTitle : Option Str := none
  metaLaunchFile : Option Str := none
  error : Option String := none
deriving DecidableEq

/-- Line 33: first zip entry whose lowercased name ends with
`imsmanifest.xml`. -/
def findManifestEntry (entries : List ZipEntry) : Option ZipEntry :=
  entries.find? (fun e => isSuf "imsmanifest.xml".data (lowerS e.entryName))

/-- Lines 56–71: schema version and localized course title details. -/
def metaDetails (m : Manifest) : Except String (List String × Option Str × Option Str) :=
  match m.metadata with
  | none => .ok ([], none, none)
  | some mds => do
    let mb ← jsAt mds
    let p1 : List String × Option Str ←
      match mb.schemaversion with
      | none => Except.ok ([], none)
      | some svl => do
        let sv ← jsAt svl
        Except.ok (["📋 SCORM Version: " ++ String.mk sv], some sv)
    let p2 : List String × Option Str ←
      match mb.lom with
      | none => Except.ok ([], none)
      | some loml => do
        let lom ← jsAt loml
        match lom.general with
        | none => Except.ok ([], none)
        | some gl => do
          let g ← jsAt gl
          match g.title with
          | none => Except.ok ([], none)
          | some tl => do
            let t ← jsAt tl
            match t.langstring with
            | none => Except.ok ([], none)
            | some lsl => do
              let ls ← jsAt lsl
              match ls.text with
              | some s =>
                if s.isEmpty then Except.ok ([], none)
                else Except.ok (["📚 Course: " ++ String.mk s], some s)
              | none => Except.ok ([], none)
    .ok (p1.1 ++ p2.1, p1.2, p2.2)

/-- Lines 73–85: organization count and itemized SCO titles. -/
def orgDetails (m : Manifest) : Except String (List String) :=
  match m.organizations with
  | none => .ok []
  | some obs => do
    let ob ← jsAt obs
    match ob.organization with
    | none => .ok []
    | some orgs => do
      let extra ← orgs.foldlM (fun (acc : List String) org =>
        match org.item with
        | none => Except.ok acc
        | some items => items.foldlM (fun (acc2 : List String) it =>
            match it.attrs with
            | none => Except.ok acc2
            | some al =>
              if truthyS (getAttr al "identifierref".data) then
                match it.title with
                | none => Except.ok (acc2 ++ ["📄 SCO: Untitled"])
                | some tl => do
                  let t ← jsAt tl
                  Except.ok (acc2 ++ ["📄 SCO: " ++ String.mk t])
              else Except.ok acc2) acc) []
      .ok (("📁 Found " ++ toString orgs.length ++ " organization(s)") :: extra)

/-- The filter `res.$ && res.$['adlcp:scormtype'] === 'sco'` (line 89). -/
def scoPred (r : Resource) : Bool :=
  match r.attrs with
  | some al => getAttr al "adlcp:scormtype".data == some "sco".data
  | none => false

/-- Lines 87–102: SCO-typed resource count and the primary resource href. -/
def resourceInfo (m : Manifest) : Except String (Bool × List String × Option Str) :=
  match m.resources with
  | none => .ok (false, [], none)
  | some rbs => do
    let rb ← jsAt rbs
    match rb.resource with
    | none => .ok (false, [], none)
    | some resources => do
      let scoResources := resources.filter scoPred
      let p : Bool × List String :=
        if 0 < scoResources.length then
          (true, ["📦 Found " ++ toString scoResources.length ++ " SCO resource(s)",
                  "✅ Package contains SCO resources (supports data persistence)"])
        else (false, [])
      let r0 ← jsAt resources
      let launch : Option Str :=
        match r0.attrs with
        | some al => if truthyS (getAttr al "href".data) then getAttr al "href".data else none
        | none => none
      .ok (p.1, p.2, launch)

/-- Lines 111–129: one scanned script file's contribution to
`apiCallsFound` / `hasAPIReferences`. -/
def scanStep (acc : List String × Bool) (content : Str) : List String × Bool :=
  let a1 := if containsS content "cmi.core.lesson_status".data ||
               containsS content "cmi.completion_status".data
            then acc.1 ++ ["lesson_status"] else acc.1
  let p2 := if containsS content "cmi.suspend_data".data
            then (a1 ++ ["suspend_data"], true) else (a1, acc.2)
  let p3 := if containsS content "cmi.location".data
            then (p2.1 ++ ["location"], true) else p2
  let a4 := if containsS content "API.LMSInitialize".data ||
               containsS content "API_1484_11.Initialize".data
            then p3.1 ++ ["LMS_Initialize"] else p3.1
  (a4, p3.2)

/-- Lines 104–129: scan of the first ten `.js` entries in archive order. -/
def scanInfo (entries : List ZipEntry) : List String × Bool :=
  (((entries.filter (fun e => isSuf ".js".data (lowerS e.entryName))).take 10).map
    (fun e => e.content)).foldl scanStep ([], false)

/-- `[...new Set(apiCallsFound)]`: deduplicate keeping first occurrences. -/
def dedupKeep (l : List String) : List String :=
  l.foldl (fun acc s => if acc.contains s then acc else acc ++ [s]) []

/-- The body of `analyzeSCORM`'s `try` block after a successful parse. -/
def analyzeCore (m : Manifest) (entries : List ZipEntry) : Except String Analysis := do
  let p1 ← metaDetails m
  let d2 ← orgDetails m
  let ri ← resourceInfo m
  let sc := scanInfo entries
  let resume := ri.1 || sc.2
  let d4 := if sc.2 then
      ["✅ Found SCORM API calls: " ++ String.intercalate ", " (dedupKeep sc.1)] else []
  let d5 := if resume then [] else
      ["⚠️ No clear resume capability indicators found",
       "ℹ️ Package may still support resume if implemented at runtime"]
  .ok { success := true, hasManifest := true, resumeCapable := resume,
        details := p1.1 ++ d2 ++ ri.2.1 ++ d4 ++ d5,
        metaVersion := p1.2.1, metaTitle := p1.2.2, metaLaunchFile := ri.2.2 }

/-- `analyzeSCORM`: the `try`/`catch` wrapper makes every failure a
structured `{success:false, error}` value, never a thrown exception. -/
def analyzeSCORM (parse : Str → Except String Manifest) (entries : List ZipEntry) : Analysis :=
  match findManifestEntry entries with
  | none => { success := false, error := some "No imsmanifest.xml found in the package" }
  | some me =>
    match parse me.content with
    | .error msg => { success := false, error := some msg }
    | .ok m =>
      match analyzeCore m entries with
      | .ok a => a
      | .error msg => { success := false, error := some msg }

theorem exbind_ok {α β : Type} (a : α) (f : α → Except String β) :
    (Except.ok a >>= f) = f a := rfl

theorem exbind_err {α β : Type} (e : String) (f : α → Except String β) :
    ((Except.error e : Except String α) >>= f) = Except.error e := rfl

/-- Spec-side form of condition (a): at least one resource in the
manifest's resources block carries the SCO-type flag. -/
def hasScoResource (m : Manifest) : Bool :=
  match m.resources with
  | some (rb :: _) =>
    match rb.resource with
    | some rl => rl.any scoPred
    | none => false
  | _ => false

/-- Spec-side form of condition (b): one of the first ten `.js` entries in
archive order contains a suspend-data or bookmark-location substring. -/
def scriptScanHit (entries : List ZipEntry) : Bool :=
  ((entries.filter (fun e => isSuf ".js".data (lowerS e.entryName))).take 10).any
    (fun e => containsS e.content "cmi.suspend_data".data ||
              containsS e.content "cmi.location".data)

theorem filter_length_pos_iff_any {α : Type} (l : List α) (p : α → Bool) :
    0 < (l.filter p).length ↔ l.any p = true := by
  induction l with
  | nil => simp
  | cons x xs ih => cases hx : p x <;> simp [List.filter_cons, hx, ih]

theorem scanStep_snd (acc : List String × Bool) (content : Str) :
    (scanStep acc content).2 =
      (acc.2 || (containsS content "cmi.suspend_data".data ||
                 containsS content "cmi.location".data)) := by
  simp only [scanStep]
  by_cases h1 : containsS content "cmi.suspend_data".data = true <;>
    by_cases h2 : containsS content "cmi.location".data = true <;>
    simp [h1, h2]

theorem scanFold_snd :
    ∀ (files : List Str) (acc : List String × Bool),
      (files.foldl scanStep acc).2 =
        (acc.2 || files.any (fun c => containsS c "cmi.suspend_data".data ||
                                      containsS c "cmi.location".data))
  | [], acc => by simp
  | c :: rest, acc => by
    rw [List.foldl_cons, scanFold_snd rest]
    simp [scanStep_snd, Bool.or_assoc]

theorem any_map_eq {α β : Type} (l : List α) (f : α → β) (p : β → Bool) :
    (l.map f).any p = l.any (fun x => p (f x)) := by
  induction l with
  | nil => rfl
  | cons x xs ih => simp [ih]

theorem scanInfo_snd (entries : List ZipEntry) :
    (scanInfo entries).2 = scriptScanHit entries := by
  rw [scanInfo, scanFold_snd, any_map_eq]
  simp [scriptScanHit]

theorem resourceInfo_sco (m : Manifest) (b : Bool) (d : List String) (l : Option Str)
    (h : resourceInfo m = .ok (b, d, l)) : b = hasScoResource m := by
  rw [resourceInfo] at h
  match hres : m.resources with
  | none => rw [hres] at h; simp at h; simp [hasScoResource, hres, ← h.1]
  | some [] => rw [hres] at h; simp [jsAt, exbind_err] at h
  | some (rb :: rbs) =>
    rw [hres] at h
    simp only [jsAt, exbind_ok] at h
    match hr : rb.resource with
    | none => rw [hr] at h; simp at h; simp [hasScoResource, hres, hr, ← h.1]
    | some [] => rw [hr] at h; simp [jsAt, exbind_err] at h
    | some (r0 :: rs) =>
      rw [hr] at h
      simp only [jsAt, exbind_ok, Except.ok.injEq, Prod.mk.injEq] at h
      obtain ⟨hb, -, -⟩ := h
      subst hb
      by_cases hc : 0 < ((r0 :: rs).filter scoPred).length
      · have hany := (filter_length_pos_iff_any (r0 :: rs) scoPred).mp hc
        simp [if_pos hc, hasScoResource, hres, hr, hany]
      · have hany : (r0 :: rs).any scoPred = false := by
          cases ha : (r0 :: rs).any scoPred with
          | true => exact absurd ((filter_length_pos_iff_any _ _).mpr ha) hc
          | false => rfl
        simp [if_neg hc, hasScoResource, hres, hr, hany]

theorem analyzeCore_resume (m : Manifest) (entries : List ZipEntry) (a : Analysis)
    (h : analyzeCore m entries = .ok a) :
    a.resumeCapable = (hasScoResource m || scriptScanHit entries) := by
  rw [analyzeCore] at h
  match h1 : metaDetails m with
  | .error msg => rw [h1] at h; simp [exbind_err] at h
  | .ok p1 =>
    rw [h1, exbind_ok] at h
    match h2 : orgDetails m with
    | .error msg => rw [h2] at h; simp [exbind_err] at h
    | .ok d2 =>
      rw [h2, exbind_ok] at h
      match h3 : resourceInfo m with
      | .error msg => rw [h3] at h; simp [exbind_err] at h
      | .ok ri =>
        rw [h3, exbind_ok] at h
        simp only [Except.ok.injEq] at h
        have hres : a.resumeCapable = (ri.1 || (scanInfo entries).2) := by
          rw [← h]
        rw [hres, scanInfo_snd,
            resourceInfo_sco m ri.1 ri.2.1 ri.2.2 (by rw [h3])]

/-- C2: for every analyzed package, the report's `resumeCapable` is true
iff (a) some resource in the manifest's resources block is SCO-typed, or
(b) one of the first ten `.js` files in archive order contains
`cmi.suspend_data` or `cmi.location`; lesson-status and LMS-initialization
patterns never affect the boolean (the equivalence holds for every input,
whatever those patterns contribute to `details`), and when both (a) and
(b) are absent the boolean is false. -/
theorem C2_resume_classification
    (parse : Str → Except String Manifest) (entries : List ZipEntry)
    (me : ZipEntry) (m : Manifest) (a : Analysis)
    (hfind : findManifestEntry entries = some me)
    (hparse : parse me.content = .ok m)
    (hcore : analyzeCore m entries = .ok a) :
    analyzeSCORM parse entries = a ∧
    (a.resumeCapable = true ↔
      (hasScoResource m = true ∨ scriptScanHit entries = true)) := by
  refine ⟨by simp [analyzeSCORM, hfind, hparse, hcore], ?_⟩
  rw [analyzeCore_resume m entries a hcore]
  simp

/-- C5: `analyzeSCORM` is a total function into `Analysis` (it never
throws); with no manifest entry anywhere in the archive (case-insensitive
suffix match at any nesting depth) it returns `success:false` with the
missing-manifest error, and when the found document fails to parse it
returns `success:false` carrying the parser's message. -/
theorem C5_analyze_failures
    (parse : Str → Except String Manifest) (entries : List ZipEntry) :
    (findManifestEntry entries = none →
      analyzeSCORM parse entries =
        { success := false, error := some "No imsmanifest.xml found in the package" }) ∧
    (∀ me msg, findManifestEntry entries = some me → parse me.content = .error msg →
      analyzeSCORM parse entries = { success := false, error := some msg }) := by
  constructor
  · intro h
    simp [analyzeSCORM, h]
  · intro me msg hfind hparse
    simp [analyzeSCORM, hfind, hparse]

/-- Concrete inputs for the C2 witness: a manifest entry whose parse has
one SCO resource, plus one script file using `cmi.suspend_data`. -/
def c2xml : Str := "<manifest>demo</manifest>".data

def c2resource : Resource :=
  { attrs := some [("adlcp:scormtype".data, "sco".data), ("href".data, "index.html".data)] }

def c2manifest : Manifest :=
  { resources := some [{ resource := some [c2resource] }] }

def c2parse : Str → Except String Manifest :=
  fun s => if s == c2xml then .ok c2manifest else .error "Invalid XML"

def c2entries : List ZipEntry :=
  [⟨"imsmanifest.xml".data, c2xml⟩,
   ⟨"app.js".data, "api.SetValue('cmi.suspend_data', d);".data⟩]

def c2report : Analysis :=
  { success := true, hasManifest := true, resumeCapable := true,
    details := ["📦 Found 1 SCO resource(s)",
                "✅ Package contains SCO resources (supports data persistence)",
                "✅ Found SCORM API calls: suspend_data"],
    metaVersion := none, metaTitle := none,
    metaLaunchFile := some "index.html".data, error := none }

/-- C2 witness: the classification theorem applied at a concrete package. -/
theorem C2_resume_witness :
    findManifestEntry c2entries = some ⟨"imsmanifest.xml".data, c2xml⟩ ∧
    c2parse c2xml = .ok c2manifest ∧
    analyzeCore c2manifest c2entries = .ok c2report ∧
    analyzeSCORM c2parse c2entries = c2report ∧
    (c2report.resumeCapable = true ↔
      (hasScoResource c2manifest = true ∨ scriptScanHit c2entries = true)) := by
  refine ⟨by decide, rfl, rfl, ?_, ?_⟩
  · exact (C2_resume_classification c2parse c2entries ⟨"imsmanifest.xml".data, c2xml⟩
      c2manifest c2report (by decide) rfl rfl).1
  · exact (C2_resume_classification c2parse c2entries ⟨"imsmanifest.xml".data, c2xml⟩
      c2manifest c2report (by decide) rfl rfl).2

def c5entries : List ZipEntry := [⟨"content/page.html".data, "<p>x</p>".data⟩]

/-- C5 witness: the failure theorem applied to an archive with no manifest
entry. -/
theorem C5_analyze_witness :
    findManifestEntry c5entries = none ∧
    analyzeSCORM (fun _ => .error "unused") c5entries =
      { success := false, error := some "No imsmanifest.xml found in the package" } :=
  ⟨by decide, (C5_analyze_failures (fun _ => .error "unused") c5entries).1 (by decide)⟩

/-! ### repairSCORM (src/server.js lines 151–297)

The function runs inside `try { … } finally { cleanup }` with no `catch`:
any error not handled by Fixes 1–2 propagates to the caller as a thrown
exception, modelled by `Except.error`.  The output archive is written as
the very last step, so the archive value exists only on the `.ok` path.
Paths are root-relative segment lists; `path.join` normalisation is
`normSegs`, `path.relative` is `relSegs`. -/

structure RepairResult where
  success : Bool
  repairs : List String
  launchFile : Option Str
deriving DecidableEq

def nsMsg : String := "🔧 Added missing adlcp namespace"

def metaMsg : String := "🔧 Added missing metadata/schema block"

def scoMsg : String := "🔧 Set adlcp:scormtype=\"sco\" on primary resource"

def createdManifestMsg : String := "🆕 Created missing imsmanifest.xml"

def rebuiltMsg : String := "🔧 Rebuilt corrupt imsmanifest.xml"

def fixedLaunchMsg (rel : Str) : String := "🔧 Fixed broken launch file → " ++ String.mk rel

def createdResourcesMsg (href : Str) : String :=
  "🆕 Created missing resources block (launch: " ++ String.mk href ++ ")"

def injectedMsg : String := "💉 Injected SCORM API shim into launch HTML"

/-- `path.relative(fromDir, toPath)` on segment lists. -/
def relSegs : List Str → List Str → List Str
  | [], t => t
  | f, [] => f.map (fun _ => "..".data)
  | a :: as, b :: bs =>
    if a = b then relSegs as bs
    else (a :: as).map (fun _ => "..".data) ++ b :: bs

/-- `path.join(dir, href)` followed by resolution against the tree. -/
def joinHref (dirSegs : List Str) (href : Str) : List Str :=
  normSegs (dirSegs ++ splitSlash href)

/-- `buildMinimalManifest` (lines 360–384), with the launch file
interpolated into the two `href` attributes. -/
def buildMinimalManifest (launchFile : Str) : Str :=
  "<?xml version=\"1.0\" encoding=\"UTF-8\"?>\n<manifest identifier=\"course_manifest\" version=\"1\"\n  xmlns=\"http://www.imsproject.org/xsd/imscp_rootv1p1p2\"\n  xmlns:adlcp=\"http://www.adlnet.org/xsd/adlcp_rootv1p2\"\n  xmlns:xsi=\"http://www.w3.org/2001/XMLSchema-instance\">\n  <metadata>\n    <schema>ADL SCORM</schema>\n    <schemaversion>1.2</schemaversion>\n  </metadata>\n  <organizations default=\"org_1\">\n    <organization identifier=\"org_1\">\n      <title>Course</title>\n      <item identifier=\"item_1\" identifierref=\"resource_1\">\n        <title>Course</title>\n      </item>\n    </organization>\n  </organizations>\n  <resources>\n    <resource identifier=\"resource_1\" type=\"webcontent\" adlcp:scormtype=\"sco\" href=\"".data
  ++ launchFile ++ "\">\n      <file href=\"".data ++ launchFile
  ++ "\"/>\n    </resource>\n  </resources>\n</manifest>".data

def minimalMeta : MetaBlock :=
  { schema := some ["ADL SCORM".data], schemaversion := some ["1.2".data] }

def minimalItem : Item :=
  { attrs := some [("identifier".data, "item_1".data), ("identifierref".data, "resource_1".data)],
    title := some ["Course".data] }

def minimalOrgs : OrgsBlock :=
  { organization := some [{ item := some [minimalItem] }] }

/-- The synthesized primary resource (used by Fix 5's resources rebuild and
present in the minimal manifest). -/
def builtResource (href : Str) : Resource :=
  { attrs := some [("identifier".data, "resource_1".data), ("type".data, "webcontent".data),
                   ("adlcp:scormtype".data, "sco".data), ("href".data, href)] }

/-- The xml2js object shape of `buildMinimalManifest launchFile` (what a
well-behaved parser returns for that document). -/
def minimalManifestObj (launchFile : Str) : Manifest :=
  { attrs := some [("identifier".data, "course_manifest".data), ("version".data, "1".data),
                   ("xmlns".data, "http://www.imsproject.org/xsd/imscp_rootv1p1p2".data),
                   ("xmlns:adlcp".data, "http://www.adlnet.org/xsd/adlcp_rootv1p2".data),
                   ("xmlns:xsi".data, "http://www.w3.org/2001/XMLSchema-instance".data)],
    metadata := some [minimalMeta],
    organizations := some [minimalOrgs],
    resources := some [{ resource := some [builtResource launchFile] }] }

/-- Fix 3 (lines 191–197): ensure the adlcp namespace on the root. -/
def fix3 (m : Manifest) : Manifest × List String :=
  let attrs0 := m.attrs.getD []
  if truthyS (getAttr attrs0 "xmlns:adlcp".data)
  then ({ m with attrs := some attrs0 }, [])
  else
    let attrs1 := setAttr attrs0 "xmlns:adlcp".data "http://www.adlnet.org/xsd/adlcp_rootv1p2".data
    ({ m with attrs := some attrs1 }, [nsMsg])

/-- Fix 4 (lines 199–203): ensure a metadata/schema block. -/
def fix4 (m : Manifest) : Manifest × List String :=
  match m.metadata with
  | none => ({ m with metadata := some [minimalMeta] }, [metaMsg])
  | some _ => (m, [])

/-- Fix 5's resources rebuild (lines 236–255). -/
def buildResourcesBlock (tree : EntryList) (manifestPath : List Str) (m : Manifest) :
    Manifest × Option Str × List String :=
  let href :=
    match findLaunchFile tree with
    | some f => joinSegs (relSegs manifestPath.dropLast f)
    | none => "index.html".data
  ({ m with resources := some [{ resource := some [builtResource href] }] },
   some href, [createdResourcesMsg href])

/-- Fix 5 (lines 205–255): SCO-type flag and launch-href repair on the
first (primary) resource, or a full resources rebuild. -/
def fix5 (tree : EntryList) (manifestPath : List Str) (m : Manifest) :
    Except String (Manifest × Option Str × List String) :=
  match m.resources with
  | some rbs => do
    let rb ← jsAt rbs
    match rb.resource with
    | some rl => do
      let primary ← jsAt rl
      match primary.attrs with
      | none => .ok (m, none, [])
      | some pa =>
        let p1 : AttrList × List String :=
          if truthyS (getAttr pa "adlcp:scormtype".data) then (pa, [])
          else (setAttr pa "adlcp:scormtype".data "sco".data, [scoMsg])
        let setPrimary : AttrList → Manifest := fun pa' =>
          let primary' : Resource := { primary with attrs := some pa' }
          let rb' : ResourcesBlock := { rb with resource := some (primary' :: rl.tail) }
          { m with resources := some (rb' :: rbs.tail) }
        let declaredHref := getAttr p1.1 "href".data
        if truthyS declaredHref then
          let hrefv := declaredHref.getD []
          if existsPath tree (joinHref manifestPath.dropLast hrefv) then
            .ok (setPrimary p1.1, some hrefv, p1.2)
          else
            match findLaunchFile tree with
            | some f =>
              let rel := joinSegs (relSegs manifestPath.dropLast f)
              .ok (setPrimary (setAttr p1.1 "href".data rel), some rel,
                   p1.2 ++ [fixedLaunchMsg rel])
            | none => .ok (setPrimary p1.1, none, p1.2)
        else .ok (setPrimary p1.1, none, p1.2)
    | none => .ok (buildResourcesBlock tree manifestPath m)
  | none => .ok (buildResourcesBlock tree manifestPath m)

def shimTag : Str := "<script src=\"/scorm-api-shim.js\"></script>\n".data

/-- Fix 6 (lines 257–276): inject the external shim script tag into the
launch HTML unless it is already referenced. -/
def fix6 (tree : EntryList) (manifestPath : List Str) (launchFile : Option Str) :
    Except String (EntryList × List String) :=
  match launchFile with
  | none => .ok (tree, [])
  | some lf =>
    if lf.isEmpty then .ok (tree, [])
    else
      let lp := joinHref manifestPath.dropLast lf
      match getNode tree lp with
      | some (.file _ c) =>
        if isHtmlName (joinSegs lp) then
          if containsS c "scorm-api-shim.js".data then .ok (tree, [])
          else .ok (writeFile tree lp (insertAfterHead shimTag c), [injectedMsg])
        else .ok (tree, [])
      | some (.dir _ _) =>
        if isHtmlName (joinSegs lp) then
          .error "EISDIR: illegal operation on a directory, read"
        else .ok (tree, [])
      | none => .ok (tree, [])

/-- Fixes 1–8 of `repairSCORM` on the extracted tree, producing the repair
log, the launch file and the final tree to be repacked. -/
def repairCore (parse : Str → Except String Manifest) (build : Manifest → Except String Str)
    (tree : EntryList) : Except String (List String × Option Str × EntryList) := do
  -- Fix 1: find / create imsmanifest.xml
  let st1 : List Str × Str × EntryList × List String :=
    match findFile tree "imsmanifest.xml".data with
    | none =>
      let xmlStr := buildMinimalManifest
        (match findLaunchFile tree with | some f => joinSegs f | none => "index.html".data)
      (["imsmanifest.xml".data], xmlStr,
       writeFile tree ["imsmanifest.xml".data] xmlStr, [createdManifestMsg])
    | some p => (p, readFileD tree p, tree, [])
  let manifestPath := st1.1
  let tree1 := st1.2.2.1
  -- Fix 2: parse, rebuilding from scratch if broken
  let st2 : Manifest × List String ←
    match parse st1.2.1 with
    | .ok mm => Except.ok (mm, st1.2.2.2)
    | .error _ => do
      let xmlStr := buildMinimalManifest
        (match findLaunchFile tree1 with | some f => joinSegs f | none => "index.html".data)
      let mm ← parse xmlStr
      Except.ok (mm, st1.2.2.2 ++ [rebuiltMsg])
  -- Fixes 3 and 4
  let f3 := fix3 st2.1
  let f4 := fix4 f3.1
  -- Fix 5
  let f5 ← fix5 tree1 manifestPath f4.1
  -- Fix 6
  let f6 ← fix6 tree1 manifestPath f5.2.1
  -- Serialize the repaired manifest and write it over the manifest path
  let bs ← build f5.1
  .ok (st2.2 ++ f3.2 ++ f4.2 ++ f5.2.2 ++ f6.2, f5.2.1, writeFile f6.1 manifestPath bs)

/-- `repairSCORM`: on success the repaired tree is repacked (zip written to
the output path); a propagated error leaves no archive at the output path
(the `finally` block only removes the temp dir). -/
def repairSCORM (parse : Str → Except String Manifest) (build : Manifest → Except String Str)
    (tree : EntryList) : Except String (RepairResult × List (Str × Str)) :=
  match repairCore parse build tree with
  | .ok st =>
    .ok ({ success := true, repairs := st.1, launchFile := st.2.1 }, addDirToZip [] st.2.2)
  | .error e => .error e

/-! ### Filesystem lemmas -/

theorem getNode_nil_path (t : EntryList) : getNode t [] = none := by
  cases t <;> rfl

theorem lookupEntry_name :
    ∀ (t : EntryList) (n : Str) (e : Entry), lookupEntry t n = some e → entryName e = n
  | .nil, n, e, h => by simp [lookupEntry] at h
  | .cons e0 rest, n, e, h => by
    by_cases hn : entryName e0 = n
    · rw [lookupEntry, if_pos hn] at h
      cases h; exact hn
    · rw [lookupEntry, if_neg hn] at h
      exact lookupEntry_name rest n e h

theorem getNode_one (t : EntryList) (n : Str) : getNode t [n] = lookupEntry t n := by
  cases t <;> rfl

theorem getNode_cons2 (t : EntryList) (n m : Str) (ps : List Str) :
    getNode t (n :: m :: ps) =
      (match lookupEntry t n with
       | some (.dir _ cs) => getNode cs (m :: ps)
       | _ => none) := by
  cases t <;> rfl

theorem writeFile_lookup_file :
    ∀ (t : EntryList) (n : Str) (c0 c : Str), lookupEntry t n = some (.file n c0) →
      lookupEntry (writeFile t [n] c) n = some (.file n c) ∧
      ∀ x, x ≠ n → lookupEntry (writeFile t [n] c) x = lookupEntry t x
  | .nil, n, c0, c, h => by simp [lookupEntry] at h
  | .cons e rest, n, c0, c, h => by
    by_cases hn : entryName e = n
    · rw [lookupEntry, if_pos hn] at h
      cases e with
      | file fn fc =>
        cases h
        constructor
        · simp [writeFile, lookupEntry, entryName]
        · intro x hx
          simp [writeFile, lookupEntry, entryName, Ne.symm hx]
      | dir dn cs => simp at h
    · rw [lookupEntry, if_neg hn] at h
      obtain ⟨h1, h2⟩ := writeFile_lookup_file rest n c0 c h
      cases e with
      | file fn fc =>
        have hfn : ¬ fn = n := by simpa [entryName] using hn
        refine ⟨?_, ?_⟩
        · simp [writeFile, hfn, lookupEntry, entryName, h1]
        · intro x hx
          by_cases hex : fn = x
          · subst hex
            simp [writeFile, hfn, lookupEntry, entryName]
          · simp [writeFile, hfn, lookupEntry, entryName, hex, h2 x hx]
      | dir dn cs =>
        have hdn : ¬ dn = n := by simpa [entryName] using hn
        refine ⟨?_, ?_⟩
        · simp [writeFile, hdn, lookupEntry, entryName, h1]
        · intro x hx
          by_cases hex : dn = x
          · subst hex
            simp [writeFile, hdn, lookupEntry, entryName]
          · simp [writeFile, hdn, lookupEntry, entryName, hex, h2 x hx]

theorem writeFile_lookup_dir :
    ∀ (t : EntryList) (n m : Str) (ps : List Str) (cs : EntryList) (c : Str),
      lookupEntry t n = some (.dir n cs) →
      lookupEntry (writeFile t (n :: m :: ps) c) n =
        some (.dir n (writeFile cs (m :: ps) c)) ∧
      ∀ x, x ≠ n → lookupEntry (writeFile t (n :: m :: ps) c) x = lookupEntry t x
  | .nil, n, m, ps, cs, c, h => by simp [lookupEntry] at h
  | .cons e rest, n, m, ps, cs, c, h => by
    by_cases hn : entryName e = n
    · rw [lookupEntry, if_pos hn] at h
      cases e with
      | file fn fc => simp at h
      | dir dn dcs =>
        cases h
        constructor
        · simp [writeFile, lookupEntry, entryName]
        · intro x hx
          simp [writeFile, lookupEntry, entryName, Ne.symm hx]
    · rw [lookupEntry, if_neg hn] at h
      obtain ⟨h1, h2⟩ := writeFile_lookup_dir rest n m ps cs c h
      cases e with
      | file fn fc =>
        have hfn : ¬ fn = n := by simpa [entryName] using hn
        refine ⟨?_, ?_⟩
        · simp [writeFile, hfn, lookupEntry, entryName, h1]
        · intro x hx
          by_cases hex : fn = x
          · subst hex
            simp [writeFile, hfn, lookupEntry, entryName]
          · simp [writeFile, hfn, lookupEntry, entryName, hex, h2 x hx]
      | dir dn dcs =>
        have hdn : ¬ dn = n := by simpa [entryName] using hn
        refine ⟨?_, ?_⟩
        · simp [writeFile, hdn, lookupEntry, entryName, h1]
        · intro x hx
          by_cases hex : dn = x
          · subst hex
            simp [writeFile, hdn, lookupEntry, entryName]
          · simp [writeFile, hdn, lookupEntry, entryName, hex, h2 x hx]

theorem writeFile_lookup_create :
    ∀ (t : EntryList) (n : Str) (c : Str), lookupEntry t n = none →
      lookupEntry (writeFile t [n] c) n = some (.file n c) ∧
      ∀ x, x ≠ n → lookupEntry (writeFile t [n] c) x = lookupEntry t x
  | .nil, n, c, _ => by
    refine ⟨by simp [writeFile, mkFilePath, lookupEntry, entryName], ?_⟩
    intro x hx
    simp [writeFile, mkFilePath, lookupEntry, entryName, Ne.symm hx]
  | .cons e rest, n, c, h => by
    by_cases hn : entryName e = n
    · rw [lookupEntry, if_pos hn] at h; simp at h
    · rw [lookupEntry, if_neg hn] at h
      obtain ⟨h1, h2⟩ := writeFile_lookup_create rest n c h
      cases e with
      | file fn fc =>
        have hfn : ¬ fn = n := by simpa [entryName] using hn
        refine ⟨by simp [writeFile, hfn, lookupEntry, entryName, h1], ?_⟩
        intro x hx
        by_cases hex : fn = x
        · subst hex
          simp [writeFile, hfn, lookupEntry, entryName]
        · simp [writeFile, hfn, lookupEntry, entryName, hex, h2 x hx]
      | dir dn dcs =>
        have hdn : ¬ dn = n := by simpa [entryName] using hn
        refine ⟨by simp [writeFile, hdn, lookupEntry, entryName, h1], ?_⟩
        intro x hx
        by_cases hex : dn = x
        · subst hex
          simp [writeFile, hdn, lookupEntry, entryName]
        · simp [writeFile, hdn, lookupEntry, entryName, hex, h2 x hx]

theorem getNode_writeFile_self :
    ∀ (q : List Str) (t : EntryList) (nq cq c : Str),
      getNode t q = some (.file nq cq) →
      getNode (writeFile t q c) q = some (.file nq c)
  | [], t, nq, cq, c, h => by rw [getNode_nil_path] at h; exact absurd h (by simp)
  | [n], t, nq, cq, c, h => by
    rw [getNode_one] at h
    have hname := lookupEntry_name t n _ h
    simp only [entryName] at hname
    subst hname
    rw [getNode_one]
    exact (writeFile_lookup_file t nq cq c h).1
  | n :: m :: ps, t, nq, cq, c, h => by
    rw [getNode_cons2] at h
    match hl : lookupEntry t n with
    | none => rw [hl] at h; simp at h
    | some (.file fn fc) => rw [hl] at h; simp at h
    | some (.dir dn cs) =>
      rw [hl] at h
      simp only at h
      have hname := lookupEntry_name t n _ hl
      simp only [entryName] at hname
      subst hname
      rw [getNode_cons2, (writeFile_lookup_dir t dn m ps cs c hl).1]
      exact getNode_writeFile_self (m :: ps) cs nq cq c h

theorem getNode_writeFile_file_pres :
    ∀ (q : List Str) (t : EntryList) (nq cq c : Str) (p : List Str) (np cp : Str),
      getNode t q = some (.file nq cq) →
      getNode t p = some (.file np cp) →
      ∃ cp', getNode (writeFile t q c) p = some (.file np cp')
  | [], t, nq, cq, c, p, np, cp, hq, hp => by
    rw [getNode_nil_path] at hq; exact absurd hq (by simp)
  | [n], t, nq, cq, c, p, np, cp, hq, hp => by
    rw [getNode_one] at hq
    have hname := lookupEntry_name t n _ hq
    simp only [entryName] at hname
    subst hname
    obtain ⟨h1, h2⟩ := writeFile_lookup_file t nq cq c hq
    match p, hp with
    | [], hp => rw [getNode_nil_path] at hp; exact absurd hp (by simp)
    | [x], hp =>
      rw [getNode_one] at hp ⊢
      by_cases hx : x = nq
      · subst hx
        rw [hp] at hq
        cases hq
        exact ⟨c, h1⟩
      · exact ⟨cp, by rw [h2 x hx, hp]⟩
    | x :: y :: ys, hp =>
      rw [getNode_cons2] at hp ⊢
      by_cases hx : x = nq
      · subst hx
        rw [hq] at hp; simp at hp
      · rw [h2 x hx]
        exact ⟨cp, hp⟩
  | n :: m :: ms, t, nq, cq, c, p, np, cp, hq, hp => by
    rw [getNode_cons2] at hq
    match hl : lookupEntry t n with
    | none => rw [hl] at hq; simp at hq
    | some (.file fn fc) => rw [hl] at hq; simp at hq
    | some (.dir dn cs) =>
      rw [hl] at hq
      simp only at hq
      have hname := lookupEntry_name t n _ hl
      simp only [entryName] at hname
      subst hname
      obtain ⟨h1, h2⟩ := writeFile_lookup_dir t dn m ms cs c hl
      match p, hp with
      | [], hp => rw [getNode_nil_path] at hp; exact absurd hp (by simp)
      | [x], hp =>
        rw [getNode_one] at hp ⊢
        by_cases hx : x = dn
        · subst hx; rw [hp] at hl; cases hl
        · exact ⟨cp, by rw [h2 x hx, hp]⟩
      | x :: y :: ys, hp =>
        rw [getNode_cons2] at hp ⊢
        by_cases hx : x = dn
        · subst hx
          rw [hl] at hp
          simp only at hp
          obtain ⟨cp', hcp'⟩ :=
            getNode_writeFile_file_pres (m :: ms) cs nq cq c (y :: ys) np cp hq hp
          exact ⟨cp', by rw [h1]; exact hcp'⟩
        · rw [h2 x hx]
          exact ⟨cp, hp⟩

theorem getNode_writeFile_create_root (t : EntryList) (n : Str) (c : Str)
    (hnone : getNode t [n] = none) :
    getNode (writeFile t [n] c) [n] = some (.file n c) ∧
    ∀ p, p ≠ [n] → getNode (writeFile t [n] c) p = getNode t p := by
  rw [getNode_one] at hnone
  obtain ⟨h1, h2⟩ := writeFile_lookup_create t n c hnone
  refine ⟨by rw [getNode_one]; exact h1, ?_⟩
  intro p hp
  match p with
  | [] => rw [getNode_nil_path, getNode_nil_path]
  | [x] =>
    rw [getNode_one, getNode_one]
    exact h2 x (by simpa using hp)
  | x :: y :: ys =>
    rw [getNode_cons2, getNode_cons2]
    by_cases hx : x = n
    · subst hx; rw [h1, hnone]
    · rw [h2 x hx]

/-- A well-formed directory-entry name: nonempty, no path separator, not a
dot segment (what `fs.readdirSync` can actually return). -/
def segOK (n : Str) : Bool :=
  decide (n ≠ []) && decide ('/' ∉ n) && decide (n ≠ ".".data) && decide (n ≠ "..".data)

def namesEL : EntryList → List Str
  | .nil => []
  | .cons e rest => entryName e :: namesEL rest

mutual
/-- Well-formed tree: every name is `segOK` and sibling names are
distinct (as on a real filesystem). -/
def wfTree : EntryList → Bool
  | .nil => true
  | .cons e rest => wfEntry e && decide (entryName e ∉ namesEL rest) && wfTree rest
def wfEntry : Entry → Bool
  | .file n _ => segOK n
  | .dir n cs => segOK n && wfTree cs
end

theorem mem_addDirToZip_of_getNode :
    ∀ (t : EntryList) (p : List Str) (pref : List Str) (n c : Str),
      getNode t p = some (.file n c) →
      (joinSegs (pref ++ p), c) ∈ addDirToZip pref t
  | .nil, p, pref, n, c, h => by
    cases p with
    | nil => rw [getNode_nil_path] at h; exact absurd h (by simp)
    | cons a as => cases as <;> simp [getNode, lookupEntry] at h
  | .cons e rest, p, pref, n, c, h => by
    match p, h with
    | [], h => rw [getNode_nil_path] at h; exact absurd h (by simp)
    | [x], h =>
      rw [getNode_one] at h
      by_cases hn : entryName e = x
      · rw [lookupEntry, if_pos hn] at h
        cases e with
        | file fn fc =>
          cases h
          simp only [entryName] at hn
          subst hn
          simp [addDirToZip, addDirToZipEntry]
        | dir dn cs => simp at h
      · rw [lookupEntry, if_neg hn] at h
        have := mem_addDirToZip_of_getNode rest [x] pref n c (by rw [getNode_one]; exact h)
        simp only [addDirToZip]
        exact List.mem_append_right _ this
    | x :: y :: ys, h =>
      rw [getNode_cons2] at h
      by_cases hn : entryName e = x
      · rw [lookupEntry, if_pos hn] at h
        cases e with
        | file fn fc => simp at h
        | dir dn cs =>
          simp only at h
          simp only [entryName] at hn
          subst hn
          have := mem_addDirToZip_of_getNode cs (y :: ys) (pref ++ [dn]) n c h
          simp only [addDirToZip, addDirToZipEntry]
          apply List.mem_append_left
          simpa [List.append_assoc] using this
      · rw [lookupEntry, if_neg hn] at h
        have := mem_addDirToZip_of_getNode rest (x :: y :: ys) pref n c
          (by rw [getNode_cons2]; exact h)
        simp only [addDirToZip]
        exact List.mem_append_right _ this

theorem findFile_sound :
    ∀ (t : EntryList) (s : Str) (p : List Str), wfTree t = true → findFile t s = some p →
      ∃ q n c hd, p = q ++ [n] ∧ p.head? = some hd ∧ hd ∈ namesEL t ∧
        getNode t p = some (.file n c) ∧ lowerS n = lowerS s ∧ ∀ x ∈ p, segOK x = true
  | .nil, s, p, _, h => by simp [findFile] at h
  | .cons e rest, s, p, hwf, h => by
    simp only [wfTree, Bool.and_eq_true, decide_eq_true_eq] at hwf
    obtain ⟨⟨hwe, hnm⟩, hwr⟩ := hwf
    rw [findFile] at h
    match hfe : findFileEntry e s with
    | some p0 =>
      rw [hfe] at h
      simp only [Option.some.injEq] at h
      subst h
      cases e with
      | file fn fc =>
        rw [findFileEntry] at hfe
        by_cases hl : lowerS fn = lowerS s
        · rw [if_pos hl] at hfe
          cases hfe
          refine ⟨[], fn, fc, fn, by simp, by simp, by simp [namesEL, entryName], ?_, hl, ?_⟩
          · rw [getNode_one, lookupEntry, if_pos (by simp [entryName])]
          · intro x hx
            simp at hx
            subst hx
            simpa [wfEntry] using hwe
        · rw [if_neg hl] at hfe; cases hfe
      | dir dn cs =>
        rw [findFileEntry] at hfe
        match hff : findFile cs s with
        | none => rw [hff] at hfe; cases hfe
        | some p1 =>
          rw [hff] at hfe
          simp only [Option.map_some', Option.some.injEq] at hfe
          subst hfe
          simp only [wfEntry, Bool.and_eq_true] at hwe
          obtain ⟨q, n, c, hd, hp1, hhd, hmem, hget, hlow, hseg⟩ :=
            findFile_sound cs s p1 hwe.2 hff
          refine ⟨dn :: q, n, c, dn, by simp [hp1], by simp, by simp [namesEL, entryName], ?_, hlow, ?_⟩
          · cases p1 with
            | nil => simp at hp1
            | cons z zs =>
              rw [getNode_cons2, lookupEntry, if_pos (by simp [entryName])]
              exact hget
          · intro x hx
            rcases List.mem_cons.mp hx with hx | hx
            · subst hx; exact hwe.1
            · exact hseg x hx
    | none =>
      rw [hfe] at h
      obtain ⟨q, n, c, hd, hp, hhd, hmem, hget, hlow, hseg⟩ :=
        findFile_sound rest s p hwr h
      refine ⟨q, n, c, hd, hp, hhd, by simp [namesEL, hmem], ?_, hlow, hseg⟩
      have hne : entryName e ≠ hd := fun hcontra => hnm (hcontra ▸ hmem)
      cases p with
      | nil => simp at hhd
      | cons z zs =>
        have hz : z = hd := by simpa using hhd
        subst hz
        cases zs with
        | nil =>
          rw [getNode_one] at hget ⊢
          rw [lookupEntry, if_neg hne]
          exact hget
        | cons w ws =>
          rw [getNode_cons2] at hget ⊢
          rw [lookupEntry, if_neg hne]
          exact hget

theorem findFirstHtml_sound :
    ∀ (t : EntryList) (p : List Str), wfTree t = true → findFirstHtml t = some p →
      ∃ q n c hd, p = q ++ [n] ∧ p.head? = some hd ∧ hd ∈ namesEL t ∧
        getNode t p = some (.file n c) ∧ isHtmlName n = true ∧ ∀ x ∈ p, segOK x = true
  | .nil, p, _, h => by simp [findFirstHtml] at h
  | .cons e rest, p, hwf, h => by
    simp only [wfTree, Bool.and_eq_true, decide_eq_true_eq] at hwf
    obtain ⟨⟨hwe, hnm⟩, hwr⟩ := hwf
    rw [findFirstHtml] at h
    match hfe : findFirstHtmlEntry e with
    | some p0 =>
      rw [hfe] at h
      simp only [Option.some.injEq] at h
      subst h
      cases e with
      | file fn fc =>
        rw [findFirstHtmlEntry] at hfe
        by_cases hl : isHtmlName fn = true
        · rw [if_pos hl] at hfe
          cases hfe
          refine ⟨[], fn, fc, fn, by simp, by simp, by simp [namesEL, entryName], ?_, hl, ?_⟩
          · rw [getNode_one, lookupEntry, if_pos (by simp [entryName])]
          · intro x hx
            simp at hx
            subst hx
            simpa [wfEntry] using hwe
        · rw [if_neg hl] at hfe; cases hfe
      | dir dn cs =>
        rw [findFirstHtmlEntry] at hfe
        match hff : findFirstHtml cs with
        | none => rw [hff] at hfe; cases hfe
        | some p1 =>
          rw [hff] at hfe
          simp only [Option.map_some', Option.some.injEq] at hfe
          subst hfe
          simp only [wfEntry, Bool.and_eq_true] at hwe
          obtain ⟨q, n, c, hd, hp1, hhd, hmem, hget, hlow, hseg⟩ :=
            findFirstHtml_sound cs p1 hwe.2 hff
          refine ⟨dn :: q, n, c, dn, by simp [hp1], by simp, by simp [namesEL, entryName], ?_, hlow, ?_⟩
          · cases p1 with
            | nil => simp at hp1
            | cons z zs =>
              rw [getNode_cons2, lookupEntry, if_pos (by simp [entryName])]
              exact hget
          · intro x hx
            rcases List.mem_cons.mp hx with hx | hx
            · subst hx; exact hwe.1
            · exact hseg x hx
    | none =>
      rw [hfe] at h
      obtain ⟨q, n, c, hd, hp, hhd, hmem, hget, hlow, hseg⟩ :=
        findFirstHtml_sound rest p hwr h
      refine ⟨q, n, c, hd, hp, hhd, by simp [namesEL, hmem], ?_, hlow, hseg⟩
      have hne : entryName e ≠ hd := fun hcontra => hnm (hcontra ▸ hmem)
      cases p with
      | nil => simp at hhd
      | cons z zs =>
        have hz : z = hd := by simpa using hhd
        subst hz
        cases zs with
        | nil =>
          rw [getNode_one] at hget ⊢
          rw [lookupEntry, if_neg hne]
          exact hget
        | cons w ws =>
          rw [getNode_cons2] at hget ⊢
          rw [lookupEntry, if_neg hne]
          exact hget

theorem tryCandidates_sound :
    ∀ (cands : List Str) (t : EntryList) (p : List Str),
      wfTree t = true →
      (∀ cand ∈ cands, lowerS cand ≠ "imsmanifest.xml".data) →
      tryCandidates cands t = some p →
      ∃ q n c, p = q ++ [n] ∧ getNode t p = some (.file n c) ∧
        lowerS n ≠ "imsmanifest.xml".data ∧ ∀ x ∈ p, segOK x = true
  | [], t, p, hwf, _, h => by
    rw [tryCandidates] at h
    obtain ⟨q, n, c, hd, hp, _, _, hget, hhtml, hseg⟩ := findFirstHtml_sound t p hwf h
    refine ⟨q, n, c, hp, hget, ?_, hseg⟩
    intro hcontra
    rw [isHtmlName, hcontra] at hhtml
    exact absurd hhtml (by decide)
  | cand :: cands, t, p, hwf, hcands, h => by
    rw [tryCandidates] at h
    match hf : findFile t cand with
    | some p0 =>
      rw [hf] at h
      simp only [Option.some.injEq] at h
      subst h
      obtain ⟨q, n, c, hd, hp, _, _, hget, hlow, hseg⟩ := findFile_sound t cand p0 hwf hf
      refine ⟨q, n, c, hp, hget, ?_, hseg⟩
      rw [hlow]
      exact hcands cand (by simp)
    | none =>
      rw [hf] at h
      exact tryCandidates_sound cands t p hwf (fun x hx => hcands x (by simp [hx])) h

theorem findLaunchFile_sound (t : EntryList) (p : List Str)
    (hwf : wfTree t = true) (h : findLaunchFile t = some p) :
    ∃ q n c, p = q ++ [n] ∧ getNode t p = some (.file n c) ∧
      lowerS n ≠ "imsmanifest.xml".data ∧ ∀ x ∈ p, segOK x = true := by
  exact tryCandidates_sound LAUNCH_CANDIDATES t p hwf (by decide) h

theorem splitOnChar_ne_nil (sep : Char) (s : Str) : splitOnChar sep s ≠ [] := by
  cases s with
  | nil => simp [splitOnChar]
  | cons c rest =>
    rw [splitOnChar]
    match splitOnChar sep rest with
    | [] => simp
    | p :: ps =>
      by_cases hc : c = sep
      · simp [hc]
      · simp [hc]

theorem splitOnChar_no_sep (sep : Char) (m : Str) (h : sep ∉ m) :
    splitOnChar sep m = [m] := by
  induction m with
  | nil => rfl
  | cons c rest ih =>
    have hcr : sep ∉ rest := fun hm => h (by simp [hm])
    have hcs : ¬ c = sep := fun hc => h (by simp [hc])
    rw [splitOnChar, ih hcr]
    simp [hcs]

theorem splitOnChar_append_no_sep (sep : Char) (m s : Str) (h : sep ∉ m)
    (p : Str) (ps : List Str) (hs : splitOnChar sep s = p :: ps) :
    splitOnChar sep (m ++ s) = (m ++ p) :: ps := by
  induction m with
  | nil => simpa using hs
  | cons c rest ih =>
    have hcr : sep ∉ rest := fun hm => h (by simp [hm])
    have hcs : ¬ c = sep := fun hc => h (by simp [hc])
    show splitOnChar sep (c :: (rest ++ s)) = (c :: (rest ++ p)) :: ps
    rw [splitOnChar, ih hcr]
    simp [hcs]

theorem splitSlash_joinSegs :
    ∀ (p : List Str), (∀ x ∈ p, segOK x = true) → p ≠ [] →
      splitSlash (joinSegs p) = p
  | [], _, hne => absurd rfl hne
  | [x], hseg, _ => by
    have hx : '/' ∉ x := by
      have := hseg x (by simp)
      simp only [segOK, Bool.and_eq_true, decide_eq_true_eq] at this
      exact this.1.1.2
    rw [joinSegs, splitSlash, splitOnChar_no_sep '/' x hx]
  | x :: y :: r, hseg, _ => by
    have hx : '/' ∉ x := by
      have := hseg x (by simp)
      simp only [segOK, Bool.and_eq_true, decide_eq_true_eq] at this
      exact this.1.1.2
    have ih := splitSlash_joinSegs (y :: r) (fun z hz => hseg z (by simp [hz])) (List.cons_ne_nil y r)
    have ih' : splitOnChar '/' (joinSegs (y :: r)) = y :: r := ih
    have hstep : splitOnChar '/' ('/' :: joinSegs (y :: r)) = [] :: y :: r := by
      rw [splitOnChar, ih']
      simp
    rw [joinSegs]
    show splitOnChar '/' (x ++ '/' :: joinSegs (y :: r)) = x :: y :: r
    rw [splitOnChar_append_no_sep '/' x _ hx [] (y :: r) hstep]
    all_goals simp

theorem normSegs_id_aux (p : List Str) (hseg : ∀ x ∈ p, segOK x = true) :
    ∀ acc, p.foldl (fun acc s =>
      if s = ".".data then acc
      else if s = "..".data then acc.dropLast
      else acc ++ [s]) acc = acc ++ p := by
  induction p with
  | nil => intro acc; simp
  | cons x xs ih =>
    intro acc
    have hx := hseg x (by simp)
    simp only [segOK, Bool.and_eq_true, decide_eq_true_eq] at hx
    rw [List.foldl_cons, if_neg hx.1.2, if_neg hx.2]
    rw [ih (fun z hz => hseg z (by simp [hz])) (acc ++ [x])]
    simp

theorem normSegs_id (p : List Str) (hseg : ∀ x ∈ p, segOK x = true) :
    normSegs p = p := by
  rw [normSegs, normSegs_id_aux p hseg []]
  simp

mutual
theorem addDirToZip_fst (pref : List Str) :
    ∀ t, (addDirToZip pref t).map Prod.fst =
      (treeFilePaths t).map (fun p => joinSegs (pref ++ p))
  | .nil => rfl
  | .cons e rest => by
    simp only [addDirToZip, treeFilePaths, List.map_append]
    rw [addDirToZipEntry_fst pref e, addDirToZip_fst pref rest]
theorem addDirToZipEntry_fst (pref : List Str) :
    ∀ e, (addDirToZipEntry pref e).map Prod.fst =
      (treeFilePathsEntry e).map (fun p => joinSegs (pref ++ p))
  | .file n c => by simp [addDirToZipEntry, treeFilePathsEntry]
  | .dir n cs => by
    simp only [addDirToZipEntry, treeFilePathsEntry, List.map_map]
    rw [addDirToZip_fst (pref ++ [n]) cs]
    apply List.map_congr_left
    intro p hp
    simp [Function.comp, List.append_assoc]
end

theorem split_at_sep (sep : Char) :
    ∀ (x y u v : Str), sep ∉ x → sep ∉ y → x ++ sep :: u = y ++ sep :: v →
      x = y ∧ u = v
  | [], [], u, v, _, _, h => ⟨rfl, by simpa using h⟩
  | [], b :: bs, u, v, _, hy, h => by
    simp only [List.nil_append, List.cons_append, List.cons.injEq] at h
    exact absurd (h.1 ▸ List.mem_cons_self b bs) hy
  | a :: as, [], u, v, hx, _, h => by
    simp only [List.nil_append, List.cons_append, List.cons.injEq] at h
    exact absurd (h.1.symm ▸ List.mem_cons_self a as) hx
  | a :: as, b :: bs, u, v, hx, hy, h => by
    simp only [List.cons_append, List.cons.injEq] at h
    have hx' : sep ∉ as := fun hm => hx (by simp [hm])
    have hy' : sep ∉ bs := fun hm => hy (by simp [hm])
    obtain ⟨h1, h2⟩ := split_at_sep sep as bs u v hx' hy' h.2
    exact ⟨by simp [h.1, h1], h2⟩

theorem joinSegs_cons2 (a b : Str) (r : List Str) :
    joinSegs (a :: b :: r) = a ++ '/' :: joinSegs (b :: r) := rfl

theorem joinSegs_ne_nil (b : Str) (bs : List Str) (hb : b ≠ []) :
    joinSegs (b :: bs) ≠ [] := by
  cases bs with
  | nil => simpa [joinSegs] using hb
  | cons c cs =>
    rw [joinSegs_cons2]
    cases b <;> simp

theorem joinSegs_inj :
    ∀ (p q : List Str), (∀ x ∈ p, segOK x = true) → (∀ x ∈ q, segOK x = true) →
      joinSegs p = joinSegs q → p = q
  | [], [], _, _, _ => rfl
  | [], b :: bs, _, hq, h => by
    have hb := hq b (by simp)
    simp only [segOK, Bool.and_eq_true, decide_eq_true_eq] at hb
    exact absurd h.symm (joinSegs_ne_nil b bs hb.1.1.1)
  | a :: as, [], hp, _, h => by
    have ha := hp a (by simp)
    simp only [segOK, Bool.and_eq_true, decide_eq_true_eq] at ha
    exact absurd h (joinSegs_ne_nil a as ha.1.1.1)
  | [a], [b], _, _, h => by simpa [joinSegs] using h
  | [a], b :: b2 :: bs, hp, hq, h => by
    have ha := hp a (by simp)
    simp only [segOK, Bool.and_eq_true, decide_eq_true_eq] at ha
    rw [joinSegs, joinSegs_cons2] at h
    exact absurd (h ▸ (by simp : '/' ∈ b ++ '/' :: joinSegs (b2 :: bs))) ha.1.1.2
  | a :: a2 :: as, [b], hp, hq, h => by
    have hb := hq b (by simp)
    simp only [segOK, Bool.and_eq_true, decide_eq_true_eq] at hb
    rw [joinSegs_cons2, joinSegs] at h
    exact absurd (h ▸ (by simp : '/' ∈ a ++ '/' :: joinSegs (a2 :: as))) hb.1.1.2
  | a :: a2 :: as, b :: b2 :: bs, hp, hq, h => by
    rw [joinSegs_cons2, joinSegs_cons2] at h
    have ha := hp a (by simp)
    have hb := hq b (by simp)
    simp only [segOK, Bool.and_eq_true, decide_eq_true_eq] at ha hb
    obtain ⟨h1, h2⟩ := split_at_sep '/' a b _ _ ha.1.1.2 hb.1.1.2 h
    have := joinSegs_inj (a2 :: as) (b2 :: bs)
      (fun x hx => hp x (by simp [List.mem_cons] at hx ⊢; tauto))
      (fun x hx => hq x (by simp [List.mem_cons] at hx ⊢; tauto)) h2
    rw [h1, this]

mutual
theorem treePaths_props :
    ∀ t, wfTree t = true →
      (treeFilePaths t).Nodup ∧
      ∀ p ∈ treeFilePaths t, (∃ hd rest2, p = hd :: rest2 ∧ hd ∈ namesEL t) ∧
        ∀ x ∈ p, segOK x = true
  | .nil, _ => ⟨List.nodup_nil, by simp [treeFilePaths]⟩
  | .cons e rest, hwf => by
    simp only [wfTree, Bool.and_eq_true, decide_eq_true_eq] at hwf
    obtain ⟨⟨hwe, hnm⟩, hwr⟩ := hwf
    obtain ⟨hnd1, hmem1⟩ := treePathsEntry_props e hwe
    obtain ⟨hnd2, hmem2⟩ := treePaths_props rest hwr
    constructor
    · rw [treeFilePaths]
      refine List.Nodup.append hnd1 hnd2 ?_
      intro p hp1 hp2
      obtain ⟨⟨rest2, hph⟩, -⟩ := hmem1 p hp1
      obtain ⟨⟨hd', rest2', hph', hhd'⟩, _⟩ := hmem2 p hp2
      rw [hph] at hph'
      have heq : entryName e = hd' := (List.cons.injEq _ _ _ _ ▸ hph').1
      exact hnm (heq ▸ hhd')
    · intro p hp
      rw [treeFilePaths] at hp
      rcases List.mem_append.mp hp with hp | hp
      · obtain ⟨⟨rest2, hph⟩, hseg⟩ := hmem1 p hp
        exact ⟨⟨entryName e, rest2, hph, by simp [namesEL]⟩, hseg⟩
      · obtain ⟨⟨hd', rest2', hph', hhd'⟩, hseg⟩ := hmem2 p hp
        exact ⟨⟨hd', rest2', hph', by simp [namesEL, hhd']⟩, hseg⟩
theorem treePathsEntry_props :
    ∀ e, wfEntry e = true →
      (treeFilePathsEntry e).Nodup ∧
      ∀ p ∈ treeFilePathsEntry e, (∃ rest2, p = entryName e :: rest2) ∧
        ∀ x ∈ p, segOK x = true
  | .file n c, hwe => by
    refine ⟨by simp [treeFilePathsEntry], ?_⟩
    intro p hp
    simp only [treeFilePathsEntry, List.mem_singleton] at hp
    subst hp
    refine ⟨⟨[], rfl⟩, ?_⟩
    intro x hx
    simp at hx
    subst hx
    simpa [wfEntry] using hwe
  | .dir n cs, hwe => by
    simp only [wfEntry, Bool.and_eq_true] at hwe
    obtain ⟨hnd, hmem⟩ := treePaths_props cs hwe.2
    constructor
    · rw [treeFilePathsEntry]
      exact hnd.map (fun a b hab => by simpa using hab)
    · intro p hp
      simp only [treeFilePathsEntry, List.mem_map] at hp
      obtain ⟨p', hp', hpp⟩ := hp
      obtain ⟨_, hseg⟩ := hmem p' hp'
      subst hpp
      refine ⟨⟨p', rfl⟩, ?_⟩
      intro x hx
      rcases List.mem_cons.mp hx with hx | hx
      · subst hx; exact hwe.1
      · exact hseg x hx
end

/-- C9: repacking an extracted tree reproduces exactly the tree's file
paths: the archive's entry-name sequence equals the tree's relative file
paths (slash-joined, structure preserved), no entry is duplicated for a
well-formed tree, and every file of the tree appears with its content. -/
theorem C9_repack_roundtrip (t : EntryList) :
    (addDirToZip [] t).map Prod.fst = (treeFilePaths t).map joinSegs ∧
    (wfTree t = true → ((addDirToZip [] t).map Prod.fst).Nodup) ∧
    (∀ p n c, getNode t p = some (.file n c) → (joinSegs p, c) ∈ addDirToZip [] t) := by
  have h1 := addDirToZip_fst [] t
  simp only [List.nil_append] at h1
  refine ⟨h1, ?_, ?_⟩
  · intro hwf
    rw [h1]
    obtain ⟨hnd, hmem⟩ := treePaths_props t hwf
    refine List.Nodup.map_on ?_ hnd
    intro x hx y hy hxy
    exact joinSegs_inj x y (hmem x hx).2 (hmem y hy).2 hxy
  · intro p n c h
    simpa using mem_addDirToZip_of_getNode t p [] n c h

/-- C9 witness: the round-trip theorem at a concrete two-level tree. -/
theorem C9_repack_witness :
    ((addDirToZip [] (.cons (.file "a.txt".data "A".data)
        (.cons (.dir "sub".data (.cons (.file "b.html".data "B".data) .nil)) .nil))).map
          Prod.fst =
      (treeFilePaths (.cons (.file "a.txt".data "A".data)
        (.cons (.dir "sub".data (.cons (.file "b.html".data "B".data) .nil)) .nil))).map
          joinSegs) ∧
    wfTree (.cons (.file "a.txt".data "A".data)
        (.cons (.dir "sub".data (.cons (.file "b.html".data "B".data) .nil)) .nil)) = true ∧
    ((addDirToZip [] (.cons (.file "a.txt".data "A".data)
        (.cons (.dir "sub".data (.cons (.file "b.html".data "B".data) .nil)) .nil))).map
          Prod.fst).Nodup :=
  ⟨(C9_repack_roundtrip _).1, by decide,
    (C9_repack_roundtrip _).2.1 (by decide)⟩

/-! ### Repair-engine lemmas and claims -/

theorem fix34_resources (m : Manifest) :
    ((fix4 (fix3 m).1).1).resources = m.resources := by
  simp only [fix3, fix4]
  split <;> split <;> rfl

theorem fix3_reps (m : Manifest) : (fix3 m).2 = [] ∨ (fix3 m).2 = [nsMsg] := by
  simp only [fix3]
  split
  · exact Or.inl rfl
  · exact Or.inr rfl

theorem fix4_reps (x : Manifest) :
    (fix4 x).2 = [] ∨ (fix4 x).2 = [metaMsg] := by
  simp only [fix4]
  split
  · exact Or.inr rfl
  · exact Or.inl rfl

/-- When a manifest is found and parses, `repairCore` reduces to Fixes
3–8 applied to the parsed object. -/
theorem repairCore_found (parse : Str → Except String Manifest)
    (build : Manifest → Except String Str) (tree : EntryList) (p : List Str) (m : Manifest)
    (hfind : findFile tree "imsmanifest.xml".data = some p)
    (hparse : parse (readFileD tree p) = .ok m) :
    repairCore parse build tree = (do
      let f5 ← fix5 tree p (fix4 (fix3 m).1).1
      let f6 ← fix6 tree p f5.2.1
      let bs ← build f5.1
      Except.ok ((fix3 m).2 ++ (fix4 (fix3 m).1).2 ++ f5.2.2 ++ f6.2, f5.2.1,
        writeFile f6.1 p bs)) := by
  rw [repairCore, hfind]
  simp only [hparse, exbind_ok, List.nil_append]

/-- C10: when the manifest's first resources block has a primary resource
with no attribute object at all, repair applies none of the Fix 5 changes
(no SCO flag set, no href checked or rewritten — the resources block is
returned untouched), determines no launch file, performs no shim
injection (the only tree change is the rewritten manifest), and still
succeeds; the repair log can contain only the namespace/metadata
entries. -/
theorem C10_primary_without_attrs
    (parse : Str → Except String Manifest) (build : Manifest → Except String Str)
    (tree : EntryList) (p : List Str) (m : Manifest)
    (rbs : List ResourcesBlock) (rb : ResourcesBlock) (rl : List Resource) (r0 : Resource)
    (bs : Str)
    (hfind : findFile tree "imsmanifest.xml".data = some p)
    (hparse : parse (readFileD tree p) = .ok m)
    (hres : m.resources = some (rb :: rbs))
    (hrl : rb.resource = some (r0 :: rl))
    (hattrs : r0.attrs = none)
    (hbuild : build (fix4 (fix3 m).1).1 = .ok bs) :
    repairSCORM parse build tree =
      .ok ({ success := true, repairs := (fix3 m).2 ++ (fix4 (fix3 m).1).2,
             launchFile := none },
           addDirToZip [] (writeFile tree p bs)) ∧
    ((fix4 (fix3 m).1).1).resources = m.resources ∧
    (∀ s ∈ (fix3 m).2 ++ (fix4 (fix3 m).1).2, s = nsMsg ∨ s = metaMsg) := by
  have hres2 : ((fix4 (fix3 m).1).1).resources = some (rb :: rbs) := by
    rw [fix34_resources m, hres]
  have hfix5 : fix5 tree p (fix4 (fix3 m).1).1 = .ok ((fix4 (fix3 m).1).1, none, []) := by
    rw [fix5, hres2]
    simp only [jsAt, exbind_ok, hrl, hattrs]
  have hcore : repairCore parse build tree =
      .ok ((fix3 m).2 ++ (fix4 (fix3 m).1).2, none, writeFile tree p bs) := by
    rw [repairCore_found parse build tree p m hfind hparse]
    rw [hfix5]
    simp only [exbind_ok, fix6, hbuild]
    simp
  refine ⟨?_, fix34_resources m, ?_⟩
  · rw [repairSCORM, hcore]
  · intro s hs
    rcases List.mem_append.mp hs with hs | hs
    · rcases fix3_reps m with h | h <;> rw [h] at hs <;> simp at hs
      · simp [hs]
    · rcases fix4_reps (fix3 m).1 with h | h <;> rw [h] at hs <;> simp at hs
      · simp [hs]

/-- Concrete inputs for the C10 witness. -/
def c10resource : Resource := {}

def c10rb : ResourcesBlock := { resource := some [c10resource] }

def c10manifest : Manifest := { resources := some [c10rb] }

def c10xml : Str := "<mm/>".data

def c10parse : Str → Except String Manifest :=
  fun st => if st == c10xml then .ok c10manifest else .error "Invalid XML"

def c10build : Manifest → Except String Str := fun _ => .ok "<rebuilt/>".data

def c10tree : EntryList := .cons (.file "imsmanifest.xml".data c10xml) .nil

/-- C10 witness: the theorem applied at a concrete package whose primary
resource has no attribute object. -/
theorem C10_primary_witness :
    repairSCORM c10parse c10build c10tree =
      .ok ({ success := true,
             repairs := (fix3 c10manifest).2 ++ (fix4 (fix3 c10manifest).1).2,
             launchFile := none },
           addDirToZip [] (writeFile c10tree ["imsmanifest.xml".data] "<rebuilt/>".data)) :=
  (C10_primary_without_attrs c10parse c10build c10tree ["imsmanifest.xml".data]
    c10manifest [] c10rb [] c10resource "<rebuilt/>".data rfl rfl rfl rfl rfl rfl).1

/-- C1 (amended): errors arising after Fixes 1–2 (namespace/metadata
repair, manifest serialization, repacking) are NOT converted into a
structured `{success:false}` result: `repairSCORM` has no catch block, so
they propagate to the caller as a thrown exception (`.error`), and the
`finally` block only removes the temp directory.  Consequently every
non-throwing run returns `success:true`, and the output archive value
exists only on the non-throwing path — an aborted repair leaves no
(partial) archive at the designated output location, because the archive
is written as the final step. -/
theorem C1_repair_error_propagation
    (parse : Str → Except String Manifest) (build : Manifest → Except String Str)
    (tree : EntryList) :
    (∀ r zip, repairSCORM parse build tree = .ok (r, zip) → r.success = true) ∧
    (∀ e, repairCore parse build tree = .error e →
      repairSCORM parse build tree = .error e) := by
  constructor
  · intro r zip h
    rw [repairSCORM] at h
    match hc : repairCore parse build tree with
    | .error e => rw [hc] at h; exact absurd h (by simp)
    | .ok st =>
      rw [hc] at h
      simp only [Except.ok.injEq, Prod.mk.injEq] at h
      rw [← h.1]
  · intro e h
    rw [repairSCORM, h]

/-- Concrete inputs for the C1 theorems. -/
def c1xml : Str := "<m/>".data

def c1parse : Str → Except String Manifest :=
  fun st => if st == c1xml then .ok {} else .error "Invalid XML"

def c1tree : EntryList := .cons (.file "imsmanifest.xml".data c1xml) .nil

/-- C1 (counterexample): with a serializer that throws, `repairSCORM`
propagates the error (`.error "boom"`) instead of returning a structured
`{success:false, error}` value — refuting the claim that such errors are
returned rather than thrown.  No archive value is produced. -/
theorem C1_repair_counterexample :
    repairSCORM c1parse (fun _ => Except.error "boom") c1tree = .error "boom" ∧
    ∀ r zip, repairSCORM c1parse (fun _ => Except.error "boom") c1tree ≠ .ok (r, zip) := by
  refine ⟨rfl, ?_⟩
  intro r zip h
  rw [show repairSCORM c1parse (fun _ => Except.error "boom") c1tree = .error "boom" from rfl] at h
  exact Except.noConfusion h

def c1build : Manifest → Except String Str := fun _ => .ok "<built/>".data

/-- C1 witness: the amended theorem applied at a concrete run (both
conjuncts, on the success path and on the throwing path). -/
theorem C1_repair_witness :
    repairSCORM c1parse c1build c1tree =
      .ok ({ success := true,
             repairs := [nsMsg, metaMsg, createdResourcesMsg "index.html".data],
             launchFile := some "index.html".data },
           [("imsmanifest.xml".data, "<built/>".data)]) ∧
    ({ success := true,
       repairs := [nsMsg, metaMsg, createdResourcesMsg "index.html".data],
       launchFile := some "index.html".data } : RepairResult).success = true :=
  ⟨rfl, (C1_repair_error_propagation c1parse c1build c1tree).1 _ _ rfl⟩

theorem find_map_setAttr_ne (l : AttrList) (k v k' : Str) (hne : k ≠ k') :
    List.find? (fun kv => kv.1 == k')
        (l.map (fun kv => if kv.1 == k then (k, v) else kv)) =
      List.find? (fun kv => kv.1 == k') l := by
  induction l with
  | nil => rfl
  | cons kv rest ih =>
    by_cases hk : (kv.1 == k) = true
    · have hk1 : kv.1 = k := by simpa using hk
      have h1 : (k == k') = false := by simpa using hne
      have h2 : (kv.1 == k') = false := by rw [hk1]; simpa using hne
      simp only [List.map_cons, hk, if_pos, List.find?, h1, h2]
      exact ih
    · simp only [List.map_cons, hk, if_neg, Bool.false_eq_true, not_false_iff]
      rw [List.find?, List.find?]
      cases hkk : (kv.1 == k') with
      | true => simp only [hkk]
      | false => simp only [hkk]; exact ih

theorem find_map_setAttr_self (l : AttrList) (k v : Str)
    (hsome : (l.find? (fun kv => kv.1 == k)).isSome = true) :
    List.find? (fun kv => kv.1 == k)
        (l.map (fun kv => if kv.1 == k then (k, v) else kv)) = some (k, v) := by
  induction l with
  | nil => simp [List.find?] at hsome
  | cons kv rest ih =>
    by_cases hk : (kv.1 == k) = true
    · simp [List.map_cons, hk, List.find?]
    · simp only [List.map_cons, hk, if_neg, Bool.false_eq_true, not_false_iff]
      rw [List.find?]
      simp only [Bool.not_eq_true] at hk
      simp only [hk]
      apply ih
      rw [List.find?] at hsome
      simpa [hk] using hsome

theorem getAttr_setAttr_ne (l : AttrList) (k v k' : Str) (h : k ≠ k') :
    getAttr (setAttr l k v) k' = getAttr l k' := by
  rw [setAttr]
  by_cases hsome : (l.find? (fun kv => kv.1 == k)).isSome = true
  · rw [if_pos hsome, getAttr, getAttr, find_map_setAttr_ne l k v k' h]
  · rw [if_neg hsome, getAttr, getAttr, List.find?_append]
    have hone : List.find? (fun kv => kv.1 == k') [(k, v)] = none := by
      rw [List.find?_eq_none]
      intro x hx
      simp only [List.mem_singleton] at hx
      subst hx
      simpa using h
    rw [hone]
    cases List.find? (fun kv => kv.1 == k') l <;> rfl

theorem getAttr_setAttr_self (l : AttrList) (k v : Str) :
    getAttr (setAttr l k v) k = some v := by
  rw [setAttr]
  by_cases hsome : (l.find? (fun kv => kv.1 == k)).isSome = true
  · rw [getAttr, if_pos hsome, find_map_setAttr_self l k v hsome]
    rfl
  · rw [getAttr, if_neg hsome, List.find?_append]
    have hfn : l.find? (fun kv => kv.1 == k) = none := by
      cases hf : l.find? (fun kv => kv.1 == k) with
      | none => rfl
      | some x => rw [hf] at hsome; simp at hsome
    rw [hfn]
    simp [List.find?]

/-- The node at `p` is a directory. -/
def isDirAt (t : EntryList) (p : List Str) : Bool :=
  match getNode t p with
  | some (.dir _ _) => true
  | _ => false

/-- The `href` attribute of the first resource of the first resources
block (what the launch-file scenario inspects after reparsing). -/
def primaryHref (m : Manifest) : Option Str :=
  match m.resources with
  | some (rb :: _) =>
    match rb.resource with
    | some (r :: _) =>
      match r.attrs with
      | some al => getAttr al "href".data
      | none => none
    | _ => none
  | _ => none

/-- The primary attribute object after Fix 5's SCO-type repair. -/
def c3Pa1 (pa : AttrList) : AttrList :=
  if truthyS (getAttr pa "adlcp:scormtype".data) then pa
  else setAttr pa "adlcp:scormtype".data "sco".data

/-- The manifest produced by Fixes 3–5 when the declared launch href is
broken and a replacement file `f` is found. -/
def c3Final (m : Manifest) (rb : ResourcesBlock) (rbs : List ResourcesBlock)
    (r0 : Resource) (rl : List Resource) (pa : AttrList) (p f : List Str) : Manifest :=
  let pa2 := setAttr (c3Pa1 pa) "href".data (joinSegs (relSegs p.dropLast f))
  let r0' : Resource := { r0 with attrs := some pa2 }
  let rb' : ResourcesBlock := { rb with resource := some (r0' :: rl) }
  { (fix4 (fix3 m).1).1 with resources := some (rb' :: rbs) }

/-- C3: when the manifest's declared launch href does not resolve to an
existing file relative to the manifest's directory, repair rewrites the
primary resource's href to the file chosen by `findLaunchFile` (the
fixed-priority candidate list, falling back to the first `.html` file
depth-first), records the fixed-broken-launch repair entry, reports that
path as the launch file, and the repaired archive contains the manifest
serialized from the updated object — which, reparsed, shows the
substituted href. -/
theorem C3_broken_launch_repair
    (parse : Str → Except String Manifest) (build : Manifest → Except String Str)
    (tree : EntryList) (p : List Str) (pn pxml : Str) (m : Manifest)
    (rb : ResourcesBlock) (rbs : List ResourcesBlock) (r0 : Resource) (rl : List Resource)
    (pa : AttrList) (hv : Str) (f : List Str) (bs : Str)
    (hfind : findFile tree "imsmanifest.xml".data = some p)
    (hget : getNode tree p = some (.file pn pxml))
    (hparse : parse pxml = .ok m)
    (hres : m.resources = some (rb :: rbs))
    (hrl : rb.resource = some (r0 :: rl))
    (hattrs : r0.attrs = some pa)
    (hhref : getAttr pa "href".data = some hv)
    (hv0 : hv ≠ [])
    (hbroken : existsPath tree (joinHref p.dropLast hv) = false)
    (hfound : findLaunchFile tree = some f)
    (hnodir : isDirAt tree
      (joinHref p.dropLast (joinSegs (relSegs p.dropLast f))) = false)
    (hbuild : build (c3Final m rb rbs r0 rl pa p f) = .ok bs)
    (hreparse : parse bs = .ok (c3Final m rb rbs r0 rl pa p f)) :
    (∃ reps treeOut,
      repairSCORM parse build tree =
        .ok ({ success := true, repairs := reps,
               launchFile := some (joinSegs (relSegs p.dropLast f)) },
             addDirToZip [] treeOut) ∧
      fixedLaunchMsg (joinSegs (relSegs p.dropLast f)) ∈ reps ∧
      (joinSegs p, bs) ∈ addDirToZip [] treeOut ∧
      primaryHref (c3Final m rb rbs r0 rl pa p f) =
        some (joinSegs (relSegs p.dropLast f)) ∧
      parse bs = .ok (c3Final m rb rbs r0 rl pa p f)) ∧
    (∀ t q, findFile t "index_lms.html".data = none →
      findFile t "index_lms.htm".data = none →
      findFile t "story.html".data = none → findFile t "story.htm".data = none →
      findFile t "index.html".data = some q → findLaunchFile t = some q) ∧
    (∀ t q, findFile t "index_lms.html".data = none →
      findFile t "index_lms.htm".data = none →
      findFile t "story.html".data = some q → findLaunchFile t = some q) := by
  refine ⟨?_, ?_, ?_⟩
  case refine_2 =>
    intro t q h1 h2 h3 h4 h5
    simp only [findLaunchFile, LAUNCH_CANDIDATES, tryCandidates, h1, h2, h3, h4, h5]
  case refine_3 =>
    intro t q h1 h2 h3
    simp only [findLaunchFile, LAUNCH_CANDIDATES, tryCandidates, h1, h2, h3]
  have hreadFile : readFileD tree p = pxml := by rw [readFileD, hget]
  have hparse' : parse (readFileD tree p) = .ok m := by rw [hreadFile]; exact hparse
  have hres2 : ((fix4 (fix3 m).1).1).resources = some (rb :: rbs) := by
    rw [fix34_resources m, hres]
  have htr : truthyS (some hv) = true := by
    simp [truthyS, hv0]
  have hhref1 : getAttr (c3Pa1 pa) "href".data = some hv := by
    rw [c3Pa1]
    split
    · exact hhref
    · rw [getAttr_setAttr_ne pa "adlcp:scormtype".data "sco".data "href".data (by decide)]
      exact hhref
  have hfix5 : fix5 tree p (fix4 (fix3 m).1).1 =
      .ok (c3Final m rb rbs r0 rl pa p f,
           some (joinSegs (relSegs p.dropLast f)),
           (if truthyS (getAttr pa "adlcp:scormtype".data) then ([] : List String)
            else [scoMsg]) ++ [fixedLaunchMsg (joinSegs (relSegs p.dropLast f))]) := by
    rw [fix5, hres2]
    simp only [jsAt, exbind_ok, hrl, hattrs]
    by_cases hsco : truthyS (getAttr pa "adlcp:scormtype".data) = true
    · simp only [hsco, if_pos, hhref1]
      have : getAttr pa "href".data = some hv := hhref
      simp only [c3Pa1, hsco, if_pos] at hhref1
      simp only [this, htr, if_pos, Option.getD_some, hbroken, Bool.false_eq_true,
        if_neg, not_false_iff, hfound]
      simp [c3Final, c3Pa1, hsco]
    · simp only [hsco, if_neg, Bool.false_eq_true, not_false_iff]
      have hhref2 : getAttr (setAttr pa "adlcp:scormtype".data "sco".data) "href".data =
          some hv := by
        rw [getAttr_setAttr_ne pa "adlcp:scormtype".data "sco".data "href".data (by decide)]
        exact hhref
      simp only [hhref2, htr, if_pos, Option.getD_some, hbroken, Bool.false_eq_true,
        if_neg, not_false_iff, hfound]
      simp [c3Final, c3Pa1, hsco]
  have hfix6 : ∃ t2 r6, fix6 tree p (some (joinSegs (relSegs p.dropLast f))) = .ok (t2, r6) ∧
      ∃ cp', getNode t2 p = some (.file pn cp') := by
    rw [fix6]
    by_cases hrelE : (joinSegs (relSegs p.dropLast f)).isEmpty = true
    · rw [if_pos hrelE]
      exact ⟨tree, [], rfl, pxml, hget⟩
    · rw [if_neg hrelE]
      match hlp : getNode tree (joinHref p.dropLast (joinSegs (relSegs p.dropLast f))) with
      | none =>
        refine ⟨tree, [], ?_, pxml, hget⟩
        simp only [hlp]
      | some (.file nlp clp) =>
        by_cases hhtml : isHtmlName (joinSegs
            (joinHref p.dropLast (joinSegs (relSegs p.dropLast f)))) = true
        · by_cases hcont : containsS clp "scorm-api-shim.js".data = true
          · refine ⟨tree, [], ?_, pxml, hget⟩
            simp [hlp, hhtml, hcont]
          · refine ⟨writeFile tree
                (joinHref p.dropLast (joinSegs (relSegs p.dropLast f)))
                (insertAfterHead shimTag clp), [injectedMsg], ?_, ?_⟩
            · simp [hlp, hhtml, hcont]
            · exact getNode_writeFile_file_pres
                (joinHref p.dropLast (joinSegs (relSegs p.dropLast f))) tree nlp clp
                (insertAfterHead shimTag clp) p pn pxml hlp hget
        · refine ⟨tree, [], ?_, pxml, hget⟩
          simp [hlp, hhtml]
      | some (.dir dn dcs) =>
        have hd : isDirAt tree
            (joinHref p.dropLast (joinSegs (relSegs p.dropLast f))) = true := by
          rw [isDirAt, hlp]
        rw [hd] at hnodir
        exact absurd hnodir (by simp)
  obtain ⟨t2, r6, hfix6eq, cp', hgetT2⟩ := hfix6
  have hcore : repairCore parse build tree =
      .ok ((fix3 m).2 ++ (fix4 (fix3 m).1).2 ++
            ((if truthyS (getAttr pa "adlcp:scormtype".data) then ([] : List String)
              else [scoMsg]) ++ [fixedLaunchMsg (joinSegs (relSegs p.dropLast f))]) ++ r6,
           some (joinSegs (relSegs p.dropLast f)),
           writeFile t2 p bs) := by
    rw [repairCore_found parse build tree p m hfind hparse', hfix5]
    simp only [exbind_ok]
    rw [hfix6eq]
    simp only [exbind_ok]
    rw [hbuild]
    simp only [exbind_ok, List.append_assoc]
  refine ⟨(fix3 m).2 ++ (fix4 (fix3 m).1).2 ++
      ((if truthyS (getAttr pa "adlcp:scormtype".data) = true then ([] : List String)
        else [scoMsg]) ++
        [fixedLaunchMsg (joinSegs (relSegs p.dropLast f))]) ++ r6,
    writeFile t2 p bs, ?_, ?_, ?_, ?_, hreparse⟩
  · rw [repairSCORM, hcore]
  · simp
  · exact mem_addDirToZip_of_getNode (writeFile t2 p bs) p [] pn bs
      (getNode_writeFile_self p t2 pn cp' bs hgetT2)
  · rw [c3Final, primaryHref]
    simp [getAttr_setAttr_self]

/-- Concrete inputs for the C3 witness (the spec's scenario: declared
`href="missing.html"`, real `story.html` and `index.html` present). -/
def c3pa : AttrList := [("href".data, "missing.html".data)]

def c3r0 : Resource := { attrs := some c3pa }

def c3rb : ResourcesBlock := { resource := some [c3r0] }

def c3m : Manifest := { resources := some [c3rb] }

def c3xml : Str := "<man/>".data

def c3finalM : Manifest :=
  c3Final c3m c3rb [] c3r0 [] c3pa ["imsmanifest.xml".data] ["story.html".data]

def c3parse : Str → Except String Manifest :=
  fun st => if st == c3xml then .ok c3m
            else if st == "<final/>".data then .ok c3finalM
            else .error "Invalid XML"

def c3build : Manifest → Except String Str :=
  fun mm => if mm = c3finalM then .ok "<final/>".data else .error "unrepresentable"

def c3tree : EntryList :=
  .cons (.file "imsmanifest.xml".data c3xml)
    (.cons (.file "index.html".data "<head></head>".data)
      (.cons (.file "story.html".data "<html>s</html>".data) .nil))

/-- C3 witness: the theorem applied at the spec's scenario; `story.html`
is preferred over `index.html` and the rewritten href survives the
rebuild/reparse round trip. -/
theorem C3_broken_launch_witness :
    (∃ reps treeOut,
      repairSCORM c3parse c3build c3tree =
        .ok ({ success := true, repairs := reps, launchFile := some "story.html".data },
             addDirToZip [] treeOut) ∧
      fixedLaunchMsg "story.html".data ∈ reps ∧
      ("imsmanifest.xml".data, "<final/>".data) ∈ addDirToZip [] treeOut ∧
      primaryHref c3finalM = some "story.html".data ∧
      c3parse "<final/>".data = .ok c3finalM) ∧
    (∀ t q, findFile t "index_lms.html".data = none →
      findFile t "index_lms.htm".data = none →
      findFile t "story.html".data = none → findFile t "story.htm".data = none →
      findFile t "index.html".data = some q → findLaunchFile t = some q) ∧
    (∀ t q, findFile t "index_lms.html".data = none →
      findFile t "index_lms.htm".data = none →
      findFile t "story.html".data = some q → findLaunchFile t = some q) := by
  exact C3_broken_launch_repair c3parse c3build c3tree ["imsmanifest.xml".data]
    "imsmanifest.xml".data c3xml c3m c3rb [] c3r0 [] c3pa "missing.html".data
    ["story.html".data] "<final/>".data
    (by decide) rfl rfl rfl rfl rfl (by decide) (by decide) (by decide)
    (by decide) (by decide) rfl rfl

/-! ### Well-formed markup: a tag-balance scanner for the minimal manifest -/

/-- States of the markup well-formedness scanner: outside any tag with the
stack of currently open element names, inside a tag collecting its text
(reversed), or a malformed document. -/
inductive XState where
  | outside : List Str → XState
  | inTag : List Str → Str → XState
  | bad : XState
deriving DecidableEq

/-- The element name of a tag's text: everything before the first space or
line break. -/
def tagNameOf (s : Str) : Str := s.takeWhile (fun c => !(c == ' ' || c == '\n'))

/-- Classification of a finished tag (on reading `>`): XML declaration,
closing tag (which must match the innermost open element), self-closing
tag, or opening tag. -/
def closeTag2 (stk : List Str) (c : Char) (cs : Str) : XState :=
  if c = '?' then .outside stk
  else if c = '/' then
    (match stk with
     | top :: rest => if top = cs then .outside rest else .bad
     | [] => .bad)
  else if (c :: cs).getLast? = some '/' then .outside stk
  else .outside (tagNameOf (c :: cs) :: stk)

def closeTag (stk : List Str) (s : Str) : XState :=
  match s with
  | [] => .bad
  | c :: cs => closeTag2 stk c cs

/-- One scanner step. -/
def xstep : XState → Char → XState
  | .bad, _ => .bad
  | .outside stk, c => if c = '<' then .inTag stk [] else .outside stk
  | .inTag stk acc, c =>
      if c = '>' then closeTag stk acc.reverse
      else if c = '<' then .bad
      else .inTag stk (c :: acc)

/-- A document is balanced markup when scanning it ends outside all tags
with every opened element closed. -/
def xmlBalanced (s : Str) : Bool :=
  s.foldl xstep (XState.outside []) == XState.outside []

/-- The three literal pieces of `buildMinimalManifest` around the two
interpolated launch-file occurrences. -/
def mmA : Str :=
  "<?xml version=\"1.0\" encoding=\"UTF-8\"?>\n<manifest identifier=\"course_manifest\" version=\"1\"\n  xmlns=\"http://www.imsproject.org/xsd/imscp_rootv1p1p2\"\n  xmlns:adlcp=\"http://www.adlnet.org/xsd/adlcp_rootv1p2\"\n  xmlns:xsi=\"http://www.w3.org/2001/XMLSchema-instance\">\n  <metadata>\n    <schema>ADL SCORM</schema>\n    <schemaversion>1.2</schemaversion>\n  </metadata>\n  <organizations default=\"org_1\">\n    <organization identifier=\"org_1\">\n      <title>Course</title>\n      <item identifier=\"item_1\" identifierref=\"resource_1\">\n        <title>Course</title>\n      </item>\n    </organization>\n  </organizations>\n  <resources>\n    <resource identifier=\"resource_1\" type=\"webcontent\" adlcp:scormtype=\"sco\" href=\"".data

def mmB : Str := "\">\n      <file href=\"".data

def mmC : Str := "\"/>\n    </resource>\n  </resources>\n</manifest>".data

theorem buildMinimalManifest_eq (lf : Str) :
    buildMinimalManifest lf = mmA ++ lf ++ mmB ++ lf ++ mmC := rfl

/-- Text of the primary `<resource ...>` tag up to the interpolation point. -/
def resLit : Str :=
  "resource identifier=\"resource_1\" type=\"webcontent\" adlcp:scormtype=\"sco\" href=\"".data

def resTl : Str :=
  "esource identifier=\"resource_1\" type=\"webcontent\" adlcp:scormtype=\"sco\" href=\"".data

theorem resLit_cons : resLit = 'r' :: resTl := rfl

/-- Text of the `<file .../>` tag up to the interpolation point. -/
def fileLit : Str := "file href=\"".data

def fileTl : Str := "ile href=\"".data

theorem fileLit_cons : fileLit = 'f' :: fileTl := rfl

/-- Scanner stack right before the primary resource tag closes. -/
def stkA : List Str := ["resources".data, "manifest".data]

theorem isPre_self (a : Str) : isPre a a = true := by
  induction a with
  | nil => rfl
  | cons x xs ih => simp [isPre, ih]

theorem getLast_q_cons (x : Char) (l : Str) (h : l ≠ []) :
    (x :: l).getLast? = l.getLast? := by
  cases l with
  | nil => exact absurd rfl h
  | cons y ys => rfl

theorem getLast_q_app (a b : Str) (hb : b ≠ []) : (a ++ b).getLast? = b.getLast? := by
  induction a with
  | nil => rfl
  | cons x xs ih =>
    rw [List.cons_append, getLast_q_cons x (xs ++ b) (by simp [hb]), ih]

theorem takeWhile_append_break (p : Char → Bool) (a b : Str)
    (ha : a.all p = false) : (a ++ b).takeWhile p = a.takeWhile p := by
  induction a with
  | nil => simp at ha
  | cons x xs ih =>
    cases hx : p x with
    | false => simp [List.takeWhile_cons, hx]
    | true =>
      have hxs : xs.all p = false := by simpa [List.all_cons, hx] using ha
      simp [List.takeWhile_cons, hx, ih hxs]

/-- Scanning any text free of angle brackets inside a tag only accumulates
it (this is how the interpolated launch file passes through the scanner). -/
theorem foldl_xstep_inTag (s : Str) (hlt : '<' ∉ s) (hgt : '>' ∉ s) :
    ∀ stk acc, List.foldl xstep (XState.inTag stk acc) s =
      XState.inTag stk (s.reverse ++ acc) := by
  induction s with
  | nil => intro stk acc; simp
  | cons x xs ih =>
    intro stk acc
    have hx1 : x ≠ '>' := by intro h; subst h; exact hgt (List.mem_cons_self _ _)
    have hx2 : x ≠ '<' := by intro h; subst h; exact hlt (List.mem_cons_self _ _)
    have hxs1 : '<' ∉ xs := fun h => hlt (List.mem_cons_of_mem _ h)
    have hxs2 : '>' ∉ xs := fun h => hgt (List.mem_cons_of_mem _ h)
    rw [List.foldl_cons]
    rw [show xstep (XState.inTag stk acc) x = XState.inTag stk (x :: acc) from by
      simp only [xstep, if_neg hx1, if_neg hx2]]
    rw [ih hxs1 hxs2]
    simp

theorem closeTag2_open (stk : List Str) (c : Char) (cs : Str)
    (h1 : c ≠ '?') (h2 : c ≠ '/') (h3 : ¬((c :: cs).getLast? = some '/')) :
    closeTag2 stk c cs = .outside (tagNameOf (c :: cs) :: stk) := by
  simp only [closeTag2]
  rw [if_neg h1, if_neg h2, if_neg h3]

theorem closeTag2_selfClose (stk : List Str) (c : Char) (cs : Str)
    (h1 : c ≠ '?') (h2 : c ≠ '/') (h3 : (c :: cs).getLast? = some '/') :
    closeTag2 stk c cs = .outside stk := by
  simp only [closeTag2]
  rw [if_neg h1, if_neg h2, if_pos h3]

/-- The synthesized minimal manifest is balanced markup for every
interpolated launch file free of angle brackets. -/
theorem minimalManifest_balanced (lf : Str) (hlt : '<' ∉ lf) (hgt : '>' ∉ lf) :
    xmlBalanced (buildMinimalManifest lf) = true := by
  rw [xmlBalanced, buildMinimalManifest_eq]
  rw [List.foldl_append, List.foldl_append, List.foldl_append, List.foldl_append]
  rw [show List.foldl xstep (XState.outside []) mmA = XState.inTag stkA resLit.reverse from
    by decide]
  rw [foldl_xstep_inTag lf hlt hgt]
  rw [show mmB = '\"' :: '>' :: ("\n      <file href=\"".data) from rfl]
  rw [List.foldl_cons, List.foldl_cons]
  rw [show xstep (XState.inTag stkA (lf.reverse ++ resLit.reverse)) '\"'
        = XState.inTag stkA ('\"' :: (lf.reverse ++ resLit.reverse)) from rfl]
  rw [show xstep (XState.inTag stkA ('\"' :: (lf.reverse ++ resLit.reverse))) '>'
        = closeTag stkA (('\"' :: (lf.reverse ++ resLit.reverse)).reverse) from rfl]
  have hrevB : ('\"' :: (lf.reverse ++ resLit.reverse)).reverse
      = resLit ++ (lf ++ ['\"']) := by simp
  rw [hrevB]
  rw [show resLit ++ (lf ++ ['\"']) = 'r' :: (resTl ++ (lf ++ ['\"'])) from by
    rw [resLit_cons]; rfl]
  rw [show closeTag stkA ('r' :: (resTl ++ (lf ++ ['\"'])))
        = closeTag2 stkA 'r' (resTl ++ (lf ++ ['\"'])) from rfl]
  have hlastB : ('r' :: (resTl ++ (lf ++ ['\"']))).getLast? = some '\"' := by
    rw [show ('r' :: (resTl ++ (lf ++ ['\"']))) = ('r' :: resTl ++ lf) ++ ['\"'] from by simp]
    rw [getLast_q_app _ _ (by simp)]
    rfl
  rw [closeTag2_open stkA 'r' (resTl ++ (lf ++ ['\"'])) (by decide) (by decide)
    (by rw [hlastB]; decide)]
  have hnameB : tagNameOf ('r' :: (resTl ++ (lf ++ ['\"']))) = "resource".data := by
    rw [tagNameOf]
    rw [show ('r' :: (resTl ++ (lf ++ ['\"']))) = resLit ++ (lf ++ ['\"']) from by
      rw [resLit_cons]; rfl]
    rw [takeWhile_append_break _ _ _ (by decide)]
    decide
  rw [hnameB]
  rw [show List.foldl xstep (XState.outside ("resource".data :: stkA))
        ("\n      <file href=\"".data)
        = XState.inTag ("resource".data :: stkA) fileLit.reverse from by decide]
  rw [foldl_xstep_inTag lf hlt hgt]
  rw [show mmC = '\"' :: '/' :: '>' :: ("\n    </resource>\n  </resources>\n</manifest>".data)
    from rfl]
  rw [List.foldl_cons, List.foldl_cons, List.foldl_cons]
  rw [show xstep (XState.inTag ("resource".data :: stkA) (lf.reverse ++ fileLit.reverse)) '\"'
        = XState.inTag ("resource".data :: stkA) ('\"' :: (lf.reverse ++ fileLit.reverse))
        from rfl]
  rw [show xstep (XState.inTag ("resource".data :: stkA)
          ('\"' :: (lf.reverse ++ fileLit.reverse))) '/'
        = XState.inTag ("resource".data :: stkA)
          ('/' :: '\"' :: (lf.reverse ++ fileLit.reverse)) from rfl]
  rw [show xstep (XState.inTag ("resource".data :: stkA)
          ('/' :: '\"' :: (lf.reverse ++ fileLit.reverse))) '>'
        = closeTag ("resource".data :: stkA)
          (('/' :: '\"' :: (lf.reverse ++ fileLit.reverse)).reverse) from rfl]
  have hrevC : ('/' :: '\"' :: (lf.reverse ++ fileLit.reverse)).reverse
      = fileLit ++ (lf ++ ['\"', '/']) := by simp
  rw [hrevC]
  rw [show fileLit ++ (lf ++ ['\"', '/']) = 'f' :: (fileTl ++ (lf ++ ['\"', '/'])) from by
    rw [fileLit_cons]; rfl]
  rw [show closeTag ("resource".data :: stkA) ('f' :: (fileTl ++ (lf ++ ['\"', '/'])))
        = closeTag2 ("resource".data :: stkA) 'f' (fileTl ++ (lf ++ ['\"', '/'])) from rfl]
  have hlastC : ('f' :: (fileTl ++ (lf ++ ['\"', '/']))).getLast? = some '/' := by
    rw [show ('f' :: (fileTl ++ (lf ++ ['\"', '/']))) = ('f' :: fileTl ++ lf) ++ ['\"', '/']
      from by simp]
    rw [getLast_q_app _ _ (by simp)]
    rfl
  rw [closeTag2_selfClose ("resource".data :: stkA) 'f' (fileTl ++ (lf ++ ['\"', '/']))
    (by decide) (by decide) hlastC]
  rw [show List.foldl xstep (XState.outside ("resource".data :: stkA))
        ("\n    </resource>\n  </resources>\n</manifest>".data) = XState.outside [] from
    by decide]
  rfl

/-! ### The repair log of a run without a manifest (C6 support) -/

theorem exbind_ok_inv {α β : Type} (x : Except String α) (f : α → Except String β) (b : β)
    (h : (x >>= f) = .ok b) : ∃ a, x = .ok a ∧ f a = .ok b := by
  cases x with
  | ok a => exact ⟨a, rfl, h⟩
  | error e =>
    rw [exbind_err] at h
    exact Except.noConfusion h

theorem msgs_ne_rebuilt :
    createdManifestMsg ≠ rebuiltMsg ∧ nsMsg ≠ rebuiltMsg ∧ metaMsg ≠ rebuiltMsg ∧
    scoMsg ≠ rebuiltMsg ∧ injectedMsg ≠ rebuiltMsg := by decide

theorem fixedLaunchMsg_ne_rebuilt (rel : Str) : fixedLaunchMsg rel ≠ rebuiltMsg := by
  intro h
  have hd : "🔧 Fixed broken launch file → ".data ++ rel = rebuiltMsg.data :=
    congrArg String.data h
  have hp : isPre ("🔧 Fixed broken launch file → ".data) rebuiltMsg.data = true := by
    rw [← hd]
    exact isPre_of_isPre_append _ _ _ (isPre_self _)
  exact absurd hp (by decide)

theorem createdResourcesMsg_ne_rebuilt (hf : Str) : createdResourcesMsg hf ≠ rebuiltMsg := by
  intro h
  have hd : ("🆕 Created missing resources block (launch: ".data ++ hf) ++ ")".data
      = rebuiltMsg.data := congrArg String.data h
  have hp : isPre ("🆕 Created missing resources block (launch: ".data) rebuiltMsg.data
      = true := by
    rw [← hd]
    exact isPre_of_isPre_append _ _ _ (isPre_of_isPre_append _ _ _ (isPre_self _))
  exact absurd hp (by decide)

/-- Every message Fix 5 can log. -/
theorem fix5_reps (tree : EntryList) (mp : List Str) (m : Manifest)
    (out : Manifest × Option Str × List String) (h : fix5 tree mp m = .ok out) :
    ∀ s ∈ out.2.2, s = scoMsg ∨ (∃ rel, s = fixedLaunchMsg rel) ∨
      ∃ hf, s = createdResourcesMsg hf := by
  simp only [fix5, jsAt, bind, Except.bind] at h
  repeat' split at h
  all_goals (try exact Except.noConfusion h)
  all_goals cases h
  all_goals intro s hs
  all_goals simp only [buildResourcesBlock, List.mem_singleton, List.mem_append,
    List.mem_cons, List.not_mem_nil, or_false, false_or, List.nil_append,
    List.cons_append] at hs
  all_goals first
    | exact Or.inr (Or.inr ⟨_, hs⟩)
    | exact Or.inl hs
    | exact Or.inr (Or.inl ⟨_, hs⟩)
    | exact hs.elim (fun h1 => Or.inl h1) (fun h1 => Or.inr (Or.inl ⟨_, h1⟩))

/-- Every message Fix 6 can log. -/
theorem fix6_reps (tree : EntryList) (mp : List Str) (lfO : Option Str)
    (out : EntryList × List String) (h : fix6 tree mp lfO = .ok out) :
    ∀ s ∈ out.2, s = injectedMsg := by
  simp only [fix6] at h
  repeat' split at h
  all_goals (try exact Except.noConfusion h)
  all_goals cases h
  all_goals intro s hs
  all_goals simp only [List.mem_singleton, List.not_mem_nil] at hs
  all_goals exact hs

/-- Possible messages of the Fix 3–6 tail of a repair log. -/
theorem fix36_msgs (x : Manifest) (l5 l6 : List String)
    (h5 : ∀ s ∈ l5, s = scoMsg ∨ (∃ rel, s = fixedLaunchMsg rel) ∨
      ∃ hf, s = createdResourcesMsg hf)
    (h6 : ∀ s ∈ l6, s = injectedMsg) :
    ∀ s ∈ (fix3 x).2 ++ ((fix4 (fix3 x).1).2 ++ (l5 ++ l6)),
      s = nsMsg ∨ s = metaMsg ∨ s = scoMsg ∨ (∃ rel, s = fixedLaunchMsg rel) ∨
      (∃ hf, s = createdResourcesMsg hf) ∨ s = injectedMsg := by
  intro s hs
  rcases List.mem_append.mp hs with hs | hs
  · rcases fix3_reps x with h3 | h3 <;> rw [h3] at hs
    · simp at hs
    · rw [List.mem_singleton] at hs
      exact Or.inl hs
  rcases List.mem_append.mp hs with hs | hs
  · rcases fix4_reps (fix3 x).1 with h4 | h4 <;> rw [h4] at hs
    · simp at hs
    · rw [List.mem_singleton] at hs
      exact Or.inr (Or.inl hs)
  rcases List.mem_append.mp hs with hs | hs
  · rcases h5 s hs with h' | h' | h'
    · exact Or.inr (Or.inr (Or.inl h'))
    · exact Or.inr (Or.inr (Or.inr (Or.inl h')))
    · exact Or.inr (Or.inr (Or.inr (Or.inr (Or.inl h'))))
  · exact Or.inr (Or.inr (Or.inr (Or.inr (Or.inr (h6 s hs)))))

/-- When the archive carries no manifest, the repair log starts with the
manifest-creation entry, possibly followed by the corrupt-rebuild entry
(never when the minimal manifest parses), and then only Fix 3–6 entries. -/
theorem repairCore_none_shape (parse : Str → Except String Manifest)
    (build : Manifest → Except String Str) (tree : EntryList)
    (hfind : findFile tree "imsmanifest.xml".data = none)
    (st : List String × Option Str × EntryList)
    (h : repairCore parse build tree = .ok st) :
    ∃ pre rest, st.1 = createdManifestMsg :: (pre ++ rest) ∧
      (pre = [] ∨ pre = [rebuiltMsg]) ∧
      (∀ m0, parse (buildMinimalManifest
          (match findLaunchFile tree with
           | some f => joinSegs f
           | none => "index.html".data)) = .ok m0 → pre = []) ∧
      (∀ s ∈ rest, s = nsMsg ∨ s = metaMsg ∨ s = scoMsg ∨
        (∃ rel, s = fixedLaunchMsg rel) ∨ (∃ hf, s = createdResourcesMsg hf) ∨
        s = injectedMsg) := by
  simp only [repairCore, hfind] at h
  cases hp : parse (buildMinimalManifest
      (match findLaunchFile tree with
       | some f => joinSegs f
       | none => "index.html".data)) with
  | ok mm =>
    rw [hp] at h
    simp only [exbind_ok] at h
    obtain ⟨f5, hf5, h⟩ := exbind_ok_inv _ _ _ h
    obtain ⟨f6, hf6, h⟩ := exbind_ok_inv _ _ _ h
    obtain ⟨bs, hbs, h⟩ := exbind_ok_inv _ _ _ h
    cases h
    refine ⟨[], (fix3 mm).2 ++ ((fix4 (fix3 mm).1).2 ++ (f5.2.2 ++ f6.2)), ?_, Or.inl rfl,
      fun _ _ => rfl,
      fix36_msgs mm f5.2.2 f6.2 (fix5_reps _ _ _ f5 hf5) (fix6_reps _ _ _ f6 hf6)⟩
    simp [List.append_assoc]
  | error e =>
    rw [hp] at h
    simp only [exbind_ok] at h
    obtain ⟨mm2, hp2, h⟩ := exbind_ok_inv _ _ _ h
    obtain ⟨f5, hf5, h⟩ := exbind_ok_inv _ _ _ h
    obtain ⟨f6, hf6, h⟩ := exbind_ok_inv _ _ _ h
    obtain ⟨bs, hbs, h⟩ := exbind_ok_inv _ _ _ h
    cases h
    refine ⟨[rebuiltMsg], (fix3 mm2).2 ++ ((fix4 (fix3 mm2).1).2 ++ (f5.2.2 ++ f6.2)), ?_,
      Or.inr rfl, ?_,
      fix36_msgs mm2 f5.2.2 f6.2 (fix5_reps _ _ _ f5 hf5) (fix6_reps _ _ _ f6 hf6)⟩
    · simp [List.append_assoc]
    · intro m0 hm0
      exact Except.noConfusion hm0

/-- **C6.** For every archive containing no manifest document, a completed
repair yields `success: true` with a repairs entry noting creation of the
missing manifest; when the synthesized minimal manifest parses (as the
spec asserts it does) the corrupt-rebuild fallback is never logged; and
the synthesized minimal manifest is well-formed, balanced markup for
every interpolated launch file free of angle brackets. -/
theorem C6_missing_manifest_creation
    (parse : Str → Except String Manifest) (build : Manifest → Except String Str)
    (tree : EntryList)
    (hfind : findFile tree "imsmanifest.xml".data = none) :
    (∀ r z, repairSCORM parse build tree = .ok (r, z) →
       r.success = true ∧ createdManifestMsg ∈ r.repairs) ∧
    (∀ m0, parse (buildMinimalManifest
        (match findLaunchFile tree with
         | some f => joinSegs f
         | none => "index.html".data)) = .ok m0 →
       ∀ r z, repairSCORM parse build tree = .ok (r, z) → rebuiltMsg ∉ r.repairs) ∧
    (∀ lf, '<' ∉ lf → '>' ∉ lf → xmlBalanced (buildMinimalManifest lf) = true) := by
  refine ⟨?_, ?_, fun lf h1 h2 => minimalManifest_balanced lf h1 h2⟩
  · intro r z h
    rw [repairSCORM] at h
    cases hc : repairCore parse build tree with
    | error e =>
      rw [hc] at h
      exact Except.noConfusion h
    | ok st =>
      rw [hc] at h
      obtain ⟨pre, rest, hshape, -, -, -⟩ :=
        repairCore_none_shape parse build tree hfind st hc
      injection h with h
      have hr : r = { success := true, repairs := st.1, launchFile := st.2.1 } :=
        (congrArg Prod.fst h).symm
      subst hr
      refine ⟨rfl, ?_⟩
      show createdManifestMsg ∈ st.1
      rw [hshape]
      exact List.mem_cons_self _ _
  · intro m0 hm0 r z h
    rw [repairSCORM] at h
    cases hc : repairCore parse build tree with
    | error e =>
      rw [hc] at h
      exact Except.noConfusion h
    | ok st =>
      rw [hc] at h
      obtain ⟨pre, rest, hshape, -, hpre, hrest⟩ :=
        repairCore_none_shape parse build tree hfind st hc
      have hpre0 : pre = [] := hpre m0 hm0
      subst hpre0
      injection h with h
      have hr : r = { success := true, repairs := st.1, launchFile := st.2.1 } :=
        (congrArg Prod.fst h).symm
      subst hr
      show rebuiltMsg ∉ st.1
      rw [hshape]
      intro hmem
      rcases List.mem_cons.mp hmem with hmem | hmem
      · exact msgs_ne_rebuilt.1 hmem.symm
      · rw [List.nil_append] at hmem
        rcases hrest rebuiltMsg hmem with h' | h' | h' | ⟨rel, h'⟩ | ⟨hf2, h'⟩ | h'
        · exact msgs_ne_rebuilt.2.1 h'.symm
        · exact msgs_ne_rebuilt.2.2.1 h'.symm
        · exact msgs_ne_rebuilt.2.2.2.1 h'.symm
        · exact fixedLaunchMsg_ne_rebuilt rel h'.symm
        · exact createdResourcesMsg_ne_rebuilt hf2 h'.symm
        · exact msgs_ne_rebuilt.2.2.2.2 h'.symm

/-- Concrete inputs for the C6 witness: an archive holding only
`index.html`, a parser accepting exactly the synthesized minimal
manifest, and a builder accepting exactly its object form. -/
def c6tree : EntryList :=
  .cons (.file "index.html".data "<head></head>".data) .nil

def c6parse : Str → Except String Manifest :=
  fun st => if st == buildMinimalManifest "index.html".data
            then .ok (minimalManifestObj "index.html".data)
            else .error "Invalid XML"

def c6build : Manifest → Except String Str :=
  fun mm => if mm = minimalManifestObj "index.html".data
            then .ok "<minimal/>".data
            else .error "unrepresentable"

/-- C6 witness: the theorem applied to the manifest-less archive, together
with the concrete run it covers (repairs log, repacked zip). -/
theorem C6_missing_manifest_witness :
    ((∀ r z, repairSCORM c6parse c6build c6tree = .ok (r, z) →
        r.success = true ∧ createdManifestMsg ∈ r.repairs) ∧
     (∀ m0, c6parse (buildMinimalManifest
         (match findLaunchFile c6tree with
          | some f => joinSegs f
          | none => "index.html".data)) = .ok m0 →
        ∀ r z, repairSCORM c6parse c6build c6tree = .ok (r, z) →
          rebuiltMsg ∉ r.repairs) ∧
     (∀ lf, '<' ∉ lf → '>' ∉ lf → xmlBalanced (buildMinimalManifest lf) = true)) ∧
    repairSCORM c6parse c6build c6tree =
      .ok ({ success := true, repairs := [createdManifestMsg, injectedMsg],
             launchFile := some "index.html".data },
           [("index.html".data,
             "<head>\n<script src=\"/scorm-api-shim.js\"></script>\n</head>".data),
            ("imsmanifest.xml".data, "<minimal/>".data)]) :=
  ⟨C6_missing_manifest_creation c6parse c6build c6tree (by decide), rfl⟩

/-! ### Batch endpoints: `/analyze-folder` and `/repair-folder` -/

/-- One per-archive entry of a batch results array (the fields the
summary invariant concerns; an exception entry has no `resumeCapable`
key, which JS reads as undefined, i.e. `false`). -/
structure FolderItem where
  filename : Str
  success : Bool
  resumeCapable : Bool
  error : Option String
deriving DecidableEq

/-- `/analyze-folder`'s aggregate summary object (line 609). -/
structure AnalyzeSummary where
  totalFiles : Nat
  successfullyAnalyzed : Nat
  resumeCapable : Nat
  failed : Nat
deriving DecidableEq

structure AnalyzeFolderResponse where
  success : Bool
  summary : AnalyzeSummary
  results : List FolderItem
deriving DecidableEq

structure RepairItem where
  filename : Str
  success : Bool
  error : Option String
deriving DecidableEq

/-- `/repair-folder`'s response (line 524): `success`, `folderPath` and
`results` only — its JSON carries no `summary` key, so reading `.summary`
yields undefined (`none`). -/
structure RepairFolderResponse where
  success : Bool
  results : List RepairItem
  summary : Option AnalyzeSummary := none
deriving DecidableEq

/-- The entry `/analyze-folder` pushes for one archive: the spread
analysis on success (lines 596), a caught error entry on exception
(line 604). -/
def analyzeItem (analyze : Str → Except String Analysis) (f : Str) : FolderItem :=
  match analyze f with
  | .ok a => { filename := f, success := a.success, resumeCapable := a.resumeCapable,
               error := a.error }
  | .error e => { filename := f, success := false, resumeCapable := false, error := some e }

/-- The `/analyze-folder` loop body (lines 582–606): push one entry and
update the three counters from the analysis outcome. -/
def analyzeFolderStep (analyze : Str → Except String Analysis)
    (st : List FolderItem × Nat × Nat × Nat) (f : Str) :
    List FolderItem × Nat × Nat × Nat :=
  match analyze f with
  | .ok a =>
    (st.1 ++ [{ filename := f, success := a.success, resumeCapable := a.resumeCapable,
                error := a.error }],
     st.2.1 + (if a.success then 1 else 0),
     st.2.2.1 + (if a.success then (if a.resumeCapable then 1 else 0) else 0),
     st.2.2.2 + (if a.success then 0 else 1))
  | .error e =>
    (st.1 ++ [{ filename := f, success := false, resumeCapable := false, error := some e }],
     st.2.1, st.2.2.1, st.2.2.2 + 1)

/-- `/analyze-folder` (lines 578–612) over the filtered zip list. -/
def analyzeFolder (analyze : Str → Except String Analysis) (zipFiles : List Str) :
    AnalyzeFolderResponse :=
  let st := zipFiles.foldl (analyzeFolderStep analyze) ([], 0, 0, 0)
  { success := true,
    summary := { totalFiles := zipFiles.length, successfullyAnalyzed := st.2.1,
                 resumeCapable := st.2.2.1, failed := st.2.2.2 },
    results := st.1 }

/-- The entry `/repair-folder` pushes for one archive (lines 500–520):
the repair result on completion, a caught error entry on exception. -/
def repairItemEntry (repair : Str → Except String RepairResult) (f : Str) : RepairItem :=
  match repair f with
  | .ok r => { filename := f, success := r.success, error := none }
  | .error e => { filename := f, success := false, error := some e }

/-- `/repair-folder` (lines 479–525) over the filtered zip list. -/
def repairFolder (repair : Str → Except String RepairResult) (zipFiles : List Str) :
    RepairFolderResponse :=
  { success := true,
    results := zipFiles.foldl (fun acc f => acc ++ [repairItemEntry repair f]) [],
    summary := none }

theorem analyzeFolderStep_eq (analyze : Str → Except String Analysis)
    (st : List FolderItem × Nat × Nat × Nat) (f : Str) :
    analyzeFolderStep analyze st f =
      (st.1 ++ [analyzeItem analyze f],
       st.2.1 + (if (analyzeItem analyze f).success then 1 else 0),
       st.2.2.1 + (if (analyzeItem analyze f).success && (analyzeItem analyze f).resumeCapable
                   then 1 else 0),
       st.2.2.2 + (if (analyzeItem analyze f).success then 0 else 1)) := by
  cases hf : analyze f with
  | ok a =>
    cases hs : a.success <;> cases hr : a.resumeCapable <;>
      simp [analyzeFolderStep, analyzeItem, hf, hs, hr]
  | error e => simp [analyzeFolderStep, analyzeItem, hf]

/-- The `/analyze-folder` loop invariant: results are a map over the
archives and the counters are the filter-lengths of that map. -/
theorem analyzeFold_inv (analyze : Str → Except String Analysis) (fs : List Str) :
    ∀ acc a b c,
      fs.foldl (analyzeFolderStep analyze) (acc, a, b, c) =
        (acc ++ fs.map (analyzeItem analyze),
         a + ((fs.map (analyzeItem analyze)).filter (fun it => it.success)).length,
         b + ((fs.map (analyzeItem analyze)).filter
               (fun it => it.success && it.resumeCapable)).length,
         c + ((fs.map (analyzeItem analyze)).filter (fun it => it.success == false)).length)
    := by
  induction fs with
  | nil => intro acc a b c; simp
  | cons f fs ih =>
    intro acc a b c
    rw [List.foldl_cons, analyzeFolderStep_eq, ih]
    simp only [List.map_cons, List.filter_cons, Prod.mk.injEq]
    refine ⟨by simp, ?_, ?_, ?_⟩
    · cases hp : (analyzeItem analyze f).success <;> simp [hp] <;> omega
    · cases hp : (analyzeItem analyze f).success && (analyzeItem analyze f).resumeCapable <;>
        simp [hp] <;> omega
    · cases hp : (analyzeItem analyze f).success <;> simp [hp] <;> omega

theorem foldl_push_map (g : Str → RepairItem) (fs : List Str) :
    ∀ acc, fs.foldl (fun acc f => acc ++ [g f]) acc = acc ++ fs.map g := by
  induction fs with
  | nil => intro acc; simp
  | cons f fs ih =>
    intro acc
    rw [List.foldl_cons, ih]
    simp

/-- The `/analyze-folder` response in closed form. -/
theorem analyzeFolder_eq (analyze : Str → Except String Analysis) (zipFiles : List Str) :
    analyzeFolder analyze zipFiles =
      { success := true,
        summary := { totalFiles := zipFiles.length,
                     successfullyAnalyzed := ((zipFiles.map (analyzeItem analyze)).filter
                       (fun it => it.success)).length,
                     resumeCapable := ((zipFiles.map (analyzeItem analyze)).filter
                       (fun it => it.success && it.resumeCapable)).length,
                     failed := ((zipFiles.map (analyzeItem analyze)).filter
                       (fun it => it.success == false)).length },
        results := zipFiles.map (analyzeItem analyze) } := by
  simp only [analyzeFolder, analyzeFold_inv analyze zipFiles [] 0 0 0, List.nil_append,
    Nat.zero_add]

/-- **C7** (amended). On the `/analyze-folder` path the summary is always
re-derivable from the result sequence alone: `totalFiles` is the number
of results, `failed` counts the results with `success = false`, and the
two remaining counters equally re-derive by filtering the results.  The
`/repair-folder` response, however, carries no summary object at all. -/
theorem C7_batch_summary_invariant
    (analyze : Str → Except String Analysis)
    (repair : Str → Except String RepairResult) (zipFiles : List Str) :
    ((analyzeFolder analyze zipFiles).summary.totalFiles
        = (analyzeFolder analyze zipFiles).results.length ∧
     (analyzeFolder analyze zipFiles).summary.failed
        = ((analyzeFolder analyze zipFiles).results.filter
            (fun it => it.success == false)).length ∧
     (analyzeFolder analyze zipFiles).summary.successfullyAnalyzed
        = ((analyzeFolder analyze zipFiles).results.filter
            (fun it => it.success)).length ∧
     (analyzeFolder analyze zipFiles).summary.resumeCapable
        = ((analyzeFolder analyze zipFiles).results.filter
            (fun it => it.success && it.resumeCapable)).length) ∧
    (repairFolder repair zipFiles).summary = none := by
  refine ⟨⟨?_, ?_, ?_, ?_⟩, rfl⟩ <;> simp [analyzeFolder_eq]

/-- C7 counterexample: a `/repair-folder` batch over one archive returns
one result but no summary object, so no `summary.totalFiles` /
`summary.failed` invariant can hold of the repair path's response. -/
theorem C7_batch_counterexample :
    (repairFolder (fun _ => .ok { success := true, repairs := [], launchFile := none })
        ["a.zip".data]).summary = none ∧
    (repairFolder (fun _ => .ok { success := true, repairs := [], launchFile := none })
        ["a.zip".data]).results.length = 1 := ⟨rfl, rfl⟩

/-- **C8.** Batch isolation: both folder loops append exactly one entry
per archive, each a function of that archive's own outcome alone (the
result sequence is a map over the archive list), and an exception while
processing an archive is caught and becomes a `success: false` entry
tagged with that archive's filename. -/
theorem C8_batch_isolation
    (repair : Str → Except String RepairResult)
    (analyze : Str → Except String Analysis) (zipFiles : List Str) :
    (repairFolder repair zipFiles).results = zipFiles.map (repairItemEntry repair) ∧
    (analyzeFolder analyze zipFiles).results = zipFiles.map (analyzeItem analyze) ∧
    (∀ f e, repair f = .error e →
      repairItemEntry repair f =
        { filename := f, success := false, error := some e }) ∧
    (∀ f e, analyze f = .error e →
      analyzeItem analyze f =
        { filename := f, success := false, resumeCapable := false, error := some e }) := by
  refine ⟨?_, ?_, ?_, ?_⟩
  · simp [repairFolder, foldl_push_map (repairItemEntry repair) zipFiles []]
  · simp [analyzeFolder_eq]
  · intro f e hf
    simp [repairItemEntry, hf]
  · intro f e hf
    simp [analyzeItem, hf]

def c8repair : Str → Except String RepairResult :=
  fun f => if f == "bad.zip".data then .error "boom"
           else .ok { success := true, repairs := [], launchFile := none }

def c8analyze : Str → Except String Analysis :=
  fun f => if f == "bad.zip".data then .error "boom"
           else .ok { success := true }

/-- C8 witness: a two-archive batch where the second archive throws; the
loop still yields one entry per archive and the thrown error becomes a
tagged failure entry. -/
theorem C8_batch_witness :
    (repairFolder c8repair ["a.zip".data, "bad.zip".data]).results
        = ["a.zip".data, "bad.zip".data].map (repairItemEntry c8repair) ∧
    repairItemEntry c8repair "bad.zip".data
        = { filename := "bad.zip".data, success := false, error := some "boom" } ∧
    analyzeItem c8analyze "bad.zip".data
        = { filename := "bad.zip".data, success := false, resumeCapable := false,
            error := some "boom" } :=
  ⟨(C8_batch_isolation c8repair c8analyze ["a.zip".data, "bad.zip".data]).1,
   (C8_batch_isolation c8repair c8analyze ["a.zip".data, "bad.zip".data]).2.2.1
     "bad.zip".data "boom" rfl,
   (C8_batch_isolation c8repair c8analyze ["a.zip".data, "bad.zip".data]).2.2.2
     "bad.zip".data "boom" rfl⟩

end Scorm
